import Mathlib

/-!
Verification of the autowire analyzer (internal/analyzer/analyzer.go) and the
package-name resolver fallback (internal/resolver/resolver.go), shallowly
embedded in Lean.  Go maps are modelled as association lists (`alookup` is a
map read), Go errors as the inductive `AnalyzeError` (rendered to the exact Go
message strings by `renderError`), and the unbounded DFS recursion of
`topoSort` as a fuel-indexed function together with a fuel-adequacy lemma
showing the chosen fuel never runs out.
-/

/-- Decimal digit value of a character (for specifying fmt `%d`). -/
def digitVal (c : Char) : Nat := c.toNat - 48

/-- Decimal rendering of a natural number, as produced by Go fmt `%d`
(e.g. in `fmt.Sprintf("%s%d", ...)`); fuel-indexed so that it is structurally
recursive. -/
def toDecimalAux : Nat → Nat → List Char
  | 0, _ => []
  | fuel + 1, n => if n < 10 then [Nat.digitChar n] else toDecimalAux fuel (n / 10) ++ [Nat.digitChar (n % 10)]

/-- Decimal rendering of a natural number (Go fmt `%d`). -/
def toDecimal (n : Nat) : String := String.mk (toDecimalAux (n + 1) n)

/-- Reads a digit string back to the number it denotes. -/
def interpDec (l : List Char) : Nat := l.foldl (fun acc c => acc * 10 + digitVal c) 0

theorem digitVal_digitChar (n : Nat) (h : n < 10) : digitVal (Nat.digitChar n) = n := by
  interval_cases n <;> rfl

theorem interpDec_append_digit (l : List Char) (c : Char) :
    interpDec (l ++ [c]) = interpDec l * 10 + digitVal c := by
  simp [interpDec, List.foldl_append]

theorem interpDec_toDecimalAux : ∀ fuel n, n < fuel → interpDec (toDecimalAux fuel n) = n := by
  intro fuel
  induction fuel with
  | zero => intro n h; omega
  | succ fuel ih =>
    intro n h
    by_cases h10 : n < 10
    · simp [toDecimalAux, h10, interpDec, digitVal_digitChar n h10]
    · have hdiv : n / 10 < fuel := by
        have : n / 10 < n := Nat.div_lt_self (by omega) (by omega)
        omega
      simp only [toDecimalAux, if_neg h10]
      rw [interpDec_append_digit, ih (n / 10) hdiv, digitVal_digitChar (n % 10) (Nat.mod_lt n (by omega))]
      omega

theorem interpDec_toDecimal (n : Nat) : interpDec (toDecimal n).data = n := by
  simpa [toDecimal] using interpDec_toDecimalAux (n + 1) n (by omega)

theorem toDecimal_injective : Function.Injective toDecimal := by
  intro m n h
  have : interpDec (toDecimal m).data = interpDec (toDecimal n).data := by rw [h]
  rwa [interpDec_toDecimal, interpDec_toDecimal] at this

theorem toDecimalAux_ne_nil (fuel n : Nat) (h : n < fuel) : toDecimalAux fuel n ≠ [] := by
  cases fuel with
  | zero => omega
  | succ fuel =>
    by_cases h10 : n < 10 <;> simp [toDecimalAux, h10]

theorem toDecimal_ne_empty (n : Nat) : toDecimal n ≠ "" := by
  have := toDecimalAux_ne_nil (n + 1) n (by omega)
  simp [toDecimal, String.ext_iff]
  exact this

/-! ### Data model (internal/types/types.go) -/

/-- Association-list read: the Lean model of a Go `map[string]V` access. -/
def alookup {α : Type} (k : String) : List (String × α) → Option α
  | [] => none
  | (k2, v) :: rest => if k = k2 then some v else alookup k rest

/-- types.TypeRef. -/
structure TypeRef where
  Name : String
  ImportPath : String
  IsPointer : Bool
deriving DecidableEq, Repr

/-- types.TypeRef.Key: `["*"] ++ [ImportPath ++ "."] ++ Name`. -/
def TypeRef.Key (t : TypeRef) : String :=
  (if t.IsPointer then "*" else "") ++ (if t.ImportPath = "" then t.Name else t.ImportPath ++ "." ++ t.Name)

/-- types.ProviderKind. -/
inductive ProviderKind where
  | struct
  | func
deriving DecidableEq, Repr

/-- types.Dependency (field `Type` is called `type` here; `Type` is reserved in Lean). -/
structure Dependency where
  FieldName : String
  type : TypeRef
deriving DecidableEq, Repr

/-- types.Provider. -/
structure Provider where
  Name : String
  Kind : ProviderKind
  ProvidedType : TypeRef
  Dependencies : List Dependency
  CanError : Bool
  ImportPath : String
  VarName : String
deriving DecidableEq, Repr

/-- types.Invocation. -/
structure Invocation where
  Name : String
  Dependencies : List TypeRef
  CanError : Bool
  ImportPath : String
deriving DecidableEq, Repr

/-- types.ParseResult. -/
structure ParseResult where
  Providers : List Provider
  Invocations : List Invocation
  OutputPackage : String
  OutputImportPath : String
  OutputPath : String
deriving DecidableEq, Repr

/-- The provided-type key of a provider. -/
def keyOf (p : Provider) : String := p.ProvidedType.Key

/-! ### Analyzer errors

The analyzer's three error classes (plus the fuel marker of the embedding,
shown unreachable by `visit_no_fuelOut`), with `renderError` producing the
exact strings built by `fmt.Errorf` in analyzer.go. -/

/-- The analyzer's error classes. -/
inductive AnalyzeError where
  | duplicate (key name1 name2 : String)
  | missing (entries : List String)
  | circular (path : List String)
  | fuelOut
deriving DecidableEq, Repr

/-- The Go error message for each error class. -/
def renderError : AnalyzeError → String
  | .duplicate key n1 n2 => "duplicate provider for " ++ key ++ ": " ++ n1 ++ " and " ++ n2
  | .missing entries => "missing dependencies:\n  " ++ String.intercalate "\n  " entries
  | .circular path => "circular dependency: " ++ String.intercalate " -> " path
  | .fuelOut => "fuel exhausted"

/-! ### Index build and duplicate check (Analyze, analyzer.go lines 20-27) -/

/-- The `byType` index-building loop of Analyze: index providers by provided
key, failing on the first duplicate with both providers' names. -/
def buildIndexGo (acc : List (String × Provider)) : List Provider → Except AnalyzeError (List (String × Provider))
  | [] => .ok acc
  | p :: rest =>
    match alookup p.ProvidedType.Key acc with
    | some dup => .error (.duplicate p.ProvidedType.Key dup.Name p.Name)
    | none => buildIndexGo (acc ++ [(p.ProvidedType.Key, p)]) rest

/-- Build the `byType` index from the provider list. -/
def buildIndex (providers : List Provider) : Except AnalyzeError (List (String × Provider)) :=
  buildIndexGo [] providers

/-! ### Completeness validation (validateDeps, analyzer.go lines 49-72) -/

/-- Missing-dependency entries contributed by one provider. -/
def depMissingOfProvider (byType : List (String × Provider)) (p : Provider) : List String :=
  p.Dependencies.filterMap fun dep =>
    if (alookup dep.type.Key byType).isSome then none
    else some (p.Name ++ " requires " ++ dep.type.Key)

/-- Missing-dependency entries contributed by one invocation. -/
def depMissingOfInvocation (byType : List (String × Provider)) (inv : Invocation) : List String :=
  inv.Dependencies.filterMap fun t =>
    if (alookup t.Key byType).isSome then none
    else some (inv.Name ++ " requires " ++ t.Key)

/-- The full `missing` list accumulated by validateDeps: all providers'
entries (in order), then all invocations' entries. -/
def missingList (providers : List Provider) (invocations : List Invocation)
    (byType : List (String × Provider)) : List String :=
  (providers.flatMap (depMissingOfProvider byType)) ++ (invocations.flatMap (depMissingOfInvocation byType))

/-- validateDeps: fail with the whole collected list iff it is nonempty. -/
def validateDeps (providers : List Provider) (invocations : List Invocation)
    (byType : List (String × Provider)) : Except AnalyzeError Unit :=
  let missing := missingList providers invocations byType
  if missing.length > 0 then .error (.missing missing) else .ok ()

/-! ### Variable-name disambiguation (resolveVarNames, analyzer.go lines 74-87) -/

/-- The resolveVarNames loop, carrying the `usedNames` count map (updates are
modelled by consing, so `alookup` reads the latest count). -/
def resolveVarNamesGo (used : List (String × Nat)) : List Provider → List Provider
  | [] => []
  | p :: rest =>
    let count := (alookup p.VarName used).getD 0
    (if count = 0 then p else { p with VarName := p.VarName ++ toDecimal count }) ::
      resolveVarNamesGo ((p.VarName, count + 1) :: used) rest

/-- resolveVarNames: first occurrence of a base name is kept, the k-th
subsequent occurrence gets the suffix k. -/
def resolveVarNames (providers : List Provider) : List Provider :=
  resolveVarNamesGo [] providers

/-! ### Topological sort (topoSort, analyzer.go lines 89-137) -/

/-- The mutable state of the DFS: Go's `visited` and `inStack` maps (as the
sets of keys mapped to true) and the accumulated `result`. -/
structure TopoState where
  visited : List String
  inStack : List String
  result : List Provider
deriving DecidableEq, Repr

/-- The dependency loop inside `visit`: for each dependency whose key has a
provider, run the visitor; unknown keys are skipped. -/
def visitDeps (byType : List (String × Provider))
    (v : Provider → List String → TopoState → Except AnalyzeError TopoState) :
    List Dependency → List String → TopoState → Except AnalyzeError TopoState
  | [], _, st => .ok st
  | dep :: rest, path, st =>
    match alookup dep.type.Key byType with
    | some q =>
      match v q path st with
      | .error e => .error e
      | .ok st2 => visitDeps byType v rest path st2
    | none => visitDeps byType v rest path st

/-- One step of the recursive `visit` closure: cycle check against `inStack`,
skip if finished, otherwise push, descend into dependencies, pop, mark
finished, and append to the result (post-order emission). -/
def visitF (byType : List (String × Provider))
    (rec : Provider → List String → TopoState → Except AnalyzeError TopoState)
    (p : Provider) (path : List String) (st : TopoState) : Except AnalyzeError TopoState :=
  if p.ProvidedType.Key ∈ st.inStack then .error (.circular (path ++ [p.ProvidedType.Key]))
  else if p.ProvidedType.Key ∈ st.visited then .ok st
  else
    match visitDeps byType rec p.Dependencies (path ++ [p.ProvidedType.Key])
        { st with inStack := p.ProvidedType.Key :: st.inStack } with
    | .error e => .error e
    | .ok st2 =>
      .ok { visited := p.ProvidedType.Key :: st2.visited,
            inStack := st2.inStack.erase p.ProvidedType.Key,
            result := st2.result ++ [p] }

/-- The fuel-indexed `visit` recursion (Go's recursion is unbounded; the
adequacy lemma shows the fuel chosen in `topoSort` never runs out). -/
def visit (byType : List (String × Provider)) :
    Nat → Provider → List String → TopoState → Except AnalyzeError TopoState
  | 0 => fun _ _ _ => .error .fuelOut
  | fuel + 1 => visitF byType (visit byType fuel)

/-- Traversal roots, first group: each invocation dependency that has a
provider. -/
def visitInvDeps (byType : List (String × Provider)) (fuel : Nat) :
    List TypeRef → TopoState → Except AnalyzeError TopoState
  | [], st => .ok st
  | t :: rest, st =>
    match alookup t.Key byType with
    | some p =>
      match visit byType fuel p [] st with
      | .error e => .error e
      | .ok st2 => visitInvDeps byType fuel rest st2
    | none => visitInvDeps byType fuel rest st

/-- Traversal roots over all invocations, in order. -/
def visitInvocations (byType : List (String × Provider)) (fuel : Nat) :
    List Invocation → TopoState → Except AnalyzeError TopoState
  | [], st => .ok st
  | inv :: rest, st =>
    match visitInvDeps byType fuel inv.Dependencies st with
    | .error e => .error e
    | .ok st2 => visitInvocations byType fuel rest st2

/-- Traversal roots, second group: every provider in declaration order. -/
def visitProviders (byType : List (String × Provider)) (fuel : Nat) :
    List Provider → TopoState → Except AnalyzeError TopoState
  | [], st => .ok st
  | p :: rest, st =>
    match visit byType fuel p [] st with
    | .error e => .error e
    | .ok st2 => visitProviders byType fuel rest st2

/-- topoSort: DFS from invocation dependencies, then from every provider. -/
def topoSort (providers : List Provider) (invocations : List Invocation)
    (byType : List (String × Provider)) : Except AnalyzeError (List Provider) :=
  match visitInvocations byType (byType.length + 1) invocations ⟨[], [], []⟩ with
  | .error e => .error e
  | .ok st1 =>
    match visitProviders byType (byType.length + 1) providers st1 with
    | .error e => .error e
    | .ok st2 => .ok st2.result

/-! ### Import collection and alias resolution (analyzer.go lines 140-189) -/

/-- The `add` closure of collectImports: skip the empty path and the output
path; the path set (a Go map keyed by path) is modelled as a duplicate-free
list. -/
def addImportPath (outputPath : String) (acc : List String) (path : String) : List String :=
  if path = "" ∨ path = outputPath then acc
  else if path ∈ acc then acc
  else acc ++ [path]

/-- Paths contributed by one provider: its own import path and each
dependency's. -/
def providerPaths (outputPath : String) (acc : List String) (p : Provider) : List String :=
  p.Dependencies.foldl (fun a dep => addImportPath outputPath a dep.type.ImportPath)
    (addImportPath outputPath acc p.ImportPath)

/-- Paths contributed by one invocation. -/
def invocationPaths (outputPath : String) (acc : List String) (inv : Invocation) : List String :=
  inv.Dependencies.foldl (fun a t => addImportPath outputPath a t.ImportPath)
    (addImportPath outputPath acc inv.ImportPath)

/-- The full path set collected by collectImports. -/
def collectPaths (providers : List Provider) (invocations : List Invocation)
    (outputPath : String) : List String :=
  invocations.foldl (invocationPaths outputPath) (providers.foldl (providerPaths outputPath) [])

/-- Lexicographic comparison of character lists: the order used by Go's
`sort.Strings` (byte-lexicographic, which agrees with code-point order on
valid UTF-8). -/
def charListLe : List Char → List Char → Bool
  | [], _ => true
  | _ :: _, [] => false
  | a :: as, b :: bs => if a = b then charListLe as bs else decide (a < b)

/-- Lexicographic string order (Go `sort.Strings` order). -/
def strLe (a b : String) : Prop := charListLe a.data b.data = true

instance : DecidableRel strLe := fun a b => inferInstanceAs (Decidable (charListLe a.data b.data = true))

/-- The alias-assignment loop of resolveImportAliases, over the
lexicographically sorted paths, carrying the `baseCount` map. -/
def resolveAliasesGo (resolver : String → String) (baseCount : List (String × Nat)) :
    List String → List (String × String)
  | [] => []
  | path :: rest =>
    let base := resolver path
    let count := (alookup base baseCount).getD 0
    (path, if count = 0 then "" else base ++ toDecimal count) ::
      resolveAliasesGo resolver ((base, count + 1) :: baseCount) rest

/-- resolveImportAliases: sort the path set lexicographically (`sort.Strings`)
and assign collision-suffixed aliases in that order. -/
def resolveImportAliases (paths : List String) (resolver : String → String) : List (String × String) :=
  resolveAliasesGo resolver [] (List.insertionSort strLe paths)

/-- collectImports. -/
def collectImports (providers : List Provider) (invocations : List Invocation)
    (outputPath : String) (resolver : String → String) : List (String × String) :=
  resolveImportAliases (collectPaths providers invocations outputPath) resolver

/-! ### Analyze (analyzer.go lines 19-47) -/

/-- analyzer.Result. -/
structure Result where
  Providers : List Provider
  Invocations : List Invocation
  PackageName : String
  OutputImportPath : String
  Imports : List (String × String)
deriving DecidableEq, Repr

/-- analyzer.Analyze: duplicate check, completeness validation, topological
sort, variable-name disambiguation, import collection. -/
def Analyze (parsed : ParseResult) (resolver : String → String) : Except AnalyzeError Result :=
  match buildIndex parsed.Providers with
  | .error e => .error e
  | .ok byType =>
    match validateDeps parsed.Providers parsed.Invocations byType with
    | .error e => .error e
    | .ok _ =>
      match topoSort parsed.Providers parsed.Invocations byType with
      | .error e => .error e
      | .ok ordered =>
        let renamed := resolveVarNames ordered
        .ok { Providers := renamed,
              Invocations := parsed.Invocations,
              PackageName := parsed.OutputPackage,
              OutputImportPath := parsed.OutputImportPath,
              Imports := collectImports renamed parsed.Invocations parsed.OutputImportPath resolver }

/-! ### Order properties of the string comparison -/

theorem charListLe_total : ∀ as bs, charListLe as bs = true ∨ charListLe bs as = true := by
  intro as
  induction as with
  | nil => intro bs; left; rfl
  | cons a as ih =>
    intro bs
    cases bs with
    | nil => right; rfl
    | cons b bs =>
      by_cases hab : a = b
      · subst hab
        rcases ih bs with h | h
        · left; simpa [charListLe] using h
        · right; simpa [charListLe] using h
      · rcases lt_trichotomy a b with h | h | h
        · left; simp [charListLe, hab, h]
        · exact absurd h hab
        · right; simp [charListLe, Ne.symm hab, h]

theorem charListLe_trans : ∀ as bs cs, charListLe as bs = true → charListLe bs cs = true →
    charListLe as cs = true := by
  intro as
  induction as with
  | nil => intro bs cs _ _; rfl
  | cons a as ih =>
    intro bs cs h1 h2
    cases bs with
    | nil => simp [charListLe] at h1
    | cons b bs =>
      cases cs with
      | nil => simp [charListLe] at h2
      | cons c cs =>
        by_cases hab : a = b <;> by_cases hbc : b = c
        · subst hab; subst hbc
          simp only [charListLe, if_pos rfl] at h1 h2 ⊢
          exact ih bs cs h1 h2
        · subst hab
          simp [charListLe, hbc] at h2 ⊢
          simp [hbc, h2]
        · subst hbc
          simp [charListLe, hab] at h1 ⊢
          simp [hab, h1]
        · simp [charListLe, hab] at h1
          simp [charListLe, hbc] at h2
          have hac : a < c := lt_trans h1 h2
          simp [charListLe, ne_of_lt hac, hac]

theorem charListLe_antisymm : ∀ as bs, charListLe as bs = true → charListLe bs as = true →
    as = bs := by
  intro as
  induction as with
  | nil =>
    intro bs h1 h2
    cases bs with
    | nil => rfl
    | cons b bs => simp [charListLe] at h2
  | cons a as ih =>
    intro bs h1 h2
    cases bs with
    | nil => simp [charListLe] at h1
    | cons b bs =>
      by_cases hab : a = b
      · subst hab
        simp only [charListLe, if_pos rfl] at h1 h2
        rw [ih bs h1 h2]
      · simp [charListLe, hab] at h1
        simp [charListLe, Ne.symm hab] at h2
        exact absurd (lt_trans h1 h2) (lt_irrefl a)

instance : IsTotal String strLe := ⟨fun a b => charListLe_total a.data b.data⟩

instance : IsTrans String strLe := ⟨fun a b c => charListLe_trans a.data b.data c.data⟩

instance : IsAntisymm String strLe :=
  ⟨fun a b h1 h2 => by
    cases a with
    | mk as =>
      cases b with
      | mk bs => exact congrArg String.mk (charListLe_antisymm as bs h1 h2)⟩

/-! ### Association-list lemmas -/

theorem alookup_eq_none {α : Type} (k : String) : ∀ (l : List (String × α)),
    alookup k l = none ↔ k ∉ l.map Prod.fst := by
  intro l
  induction l with
  | nil => simp [alookup]
  | cons kv rest ih =>
    obtain ⟨k2, v⟩ := kv
    by_cases h : k = k2 <;> simp [alookup, h, ih]

theorem alookup_isSome {α : Type} (k : String) : ∀ (l : List (String × α)),
    (alookup k l).isSome = true ↔ k ∈ l.map Prod.fst := by
  intro l
  induction l with
  | nil => simp [alookup]
  | cons kv rest ih =>
    obtain ⟨k2, v⟩ := kv
    by_cases h : k = k2 <;> simp [alookup, h, ih]

theorem alookup_mem {α : Type} (k : String) : ∀ (l : List (String × α)) (v : α),
    alookup k l = some v → (k, v) ∈ l := by
  intro l
  induction l with
  | nil => intro v h; simp [alookup] at h
  | cons kv rest ih =>
    intro v h
    obtain ⟨k2, v2⟩ := kv
    by_cases heq : k = k2
    · subst heq
      simp [alookup] at h
      subst h
      exact List.mem_cons_self _ _
    · simp [alookup, heq] at h
      exact List.mem_cons_of_mem _ (ih v h)

theorem alookup_map_pairs {l : List Provider} {k : String} {q : Provider}
    (h : alookup k (l.map fun p => (keyOf p, p)) = some q) : q ∈ l ∧ keyOf q = k := by
  induction l with
  | nil => simp [alookup] at h
  | cons p rest ih =>
    by_cases heq : k = keyOf p
    · subst heq
      simp [alookup] at h
      subst h
      exact ⟨List.mem_cons_self _ _, rfl⟩
    · simp only [List.map_cons, alookup, if_neg heq] at h
      obtain ⟨hmem, hk⟩ := ih h
      exact ⟨List.mem_cons_of_mem _ hmem, hk⟩

theorem alookup_map_pairs_self {l : List Provider} (hnd : (l.map keyOf).Nodup) :
    ∀ p, p ∈ l → alookup (keyOf p) (l.map fun q => (keyOf q, q)) = some p := by
  induction l with
  | nil => intro p hp; simp at hp
  | cons p0 rest ih =>
    intro p hp
    simp only [List.map_cons, List.nodup_cons] at hnd
    rcases List.mem_cons.mp hp with h | h
    · subst h
      simp [alookup]
    · by_cases heq : keyOf p = keyOf p0
      · exact absurd (heq ▸ List.mem_map_of_mem keyOf h) hnd.1
      · simp only [List.map_cons, alookup, if_neg heq]
        exact ih hnd.2 p h

/-! ### buildIndex characterization -/

theorem buildIndexGo_ok : ∀ (l : List Provider) (acc res : List (String × Provider)),
    buildIndexGo acc l = .ok res → res = acc ++ l.map fun p => (keyOf p, p) := by
  intro l
  induction l with
  | nil => intro acc res h; simpa [buildIndexGo] using h.symm
  | cons p rest ih =>
    intro acc res h
    simp only [buildIndexGo] at h
    cases hl : alookup p.ProvidedType.Key acc with
    | some dup => rw [hl] at h; exact absurd h (by simp)
    | none =>
      rw [hl] at h
      have := ih _ _ h
      simpa [List.append_assoc] using this

theorem buildIndexGo_ok_keys : ∀ (l : List Provider) (acc res : List (String × Provider)),
    buildIndexGo acc l = .ok res → (acc.map Prod.fst).Nodup →
    ((acc.map Prod.fst) ++ l.map keyOf).Nodup := by
  intro l
  induction l with
  | nil => intro acc res _ hnd; simpa using hnd
  | cons p rest ih =>
    intro acc res h hnd
    simp only [buildIndexGo] at h
    cases hl : alookup p.ProvidedType.Key acc with
    | some dup => rw [hl] at h; exact absurd h (by simp)
    | none =>
      rw [hl] at h
      have hnotin : p.ProvidedType.Key ∉ acc.map Prod.fst := (alookup_eq_none _ _).mp hl
      have hacc2 : ((acc ++ [(p.ProvidedType.Key, p)]).map Prod.fst).Nodup := by
        rw [List.map_append]
        refine List.Nodup.append hnd (List.nodup_singleton _) ?_
        intro x hx hmem
        simp only [List.map_cons, List.map_nil, List.mem_singleton] at hmem
        subst hmem
        exact hnotin hx
      have := ih _ _ h hacc2
      simpa [List.map_append, List.append_assoc] using this

theorem buildIndex_ok_shape {l : List Provider} {res : List (String × Provider)}
    (h : buildIndex l = .ok res) :
    res = (l.map fun p => (keyOf p, p)) ∧ (l.map keyOf).Nodup := by
  constructor
  · simpa using buildIndexGo_ok l [] res h
  · simpa using buildIndexGo_ok_keys l [] res h (by simp)

theorem buildIndexGo_error_shape : ∀ (l : List Provider) (acc : List (String × Provider)) (e : AnalyzeError),
    buildIndexGo acc l = .error e →
    ∃ pfx p rest dup, l = pfx ++ p :: rest ∧
      alookup (keyOf p) (acc ++ pfx.map fun q => (keyOf q, q)) = some dup ∧
      e = .duplicate (keyOf p) dup.Name p.Name := by
  intro l
  induction l with
  | nil => intro acc e h; simp [buildIndexGo] at h
  | cons p rest ih =>
    intro acc e h
    simp only [buildIndexGo] at h
    cases hl : alookup p.ProvidedType.Key acc with
    | some dup =>
      rw [hl] at h
      refine ⟨[], p, rest, dup, by simp, by simpa [keyOf] using hl, ?_⟩
      simp only [Except.error.injEq] at h
      exact h.symm
    | none =>
      rw [hl] at h
      obtain ⟨pfx, p2, rest2, dup, hdec, hlk, he⟩ := ih _ _ h
      refine ⟨p :: pfx, p2, rest2, dup, by simp [hdec], ?_, he⟩
      simpa [List.append_assoc] using hlk

theorem alookup_append_mem {α : Type} (k : String) : ∀ (l1 l2 : List (String × α)) (v : α),
    alookup k (l1 ++ l2) = some v → alookup k l1 = some v ∨ alookup k l2 = some v := by
  intro l1
  induction l1 with
  | nil => intro l2 v h; right; simpa using h
  | cons kv rest ih =>
    intro l2 v h
    obtain ⟨k2, v2⟩ := kv
    by_cases heq : k = k2
    · subst heq
      simp [alookup] at h ⊢
      left; exact h
    · simp only [List.cons_append, alookup, if_neg heq] at h ⊢
      exact ih l2 v h

/-- C4, proved below as `analyze_duplicate_error`: the concrete counterpart of
the duplicate-provider hypothesis. -/
def HasDupKey (providers : List Provider) : Prop :=
  ∃ (i : Nat) (j : Nat) (hi : i < providers.length) (hj : j < providers.length),
    i ≠ j ∧ keyOf (providers.get ⟨i, hi⟩) = keyOf (providers.get ⟨j, hj⟩)

theorem not_nodup_of_hasDupKey {providers : List Provider} (h : HasDupKey providers) :
    ¬ (providers.map keyOf).Nodup := by
  obtain ⟨i, j, hi, hj, hij, hkey⟩ := h
  intro hnd
  have hinj := List.nodup_iff_injective_get.mp hnd
  have hmi : i < (providers.map keyOf).length := by simpa using hi
  have hmj : j < (providers.map keyOf).length := by simpa using hj
  have : (providers.map keyOf).get ⟨i, hmi⟩ = (providers.map keyOf).get ⟨j, hmj⟩ := by
    simpa [List.get_map] using hkey
  have := hinj this
  simp only [Fin.mk.injEq] at this
  exact hij this

/-- C4: a ParseResult with two providers sharing a provided-type key makes
Analyze fail with a duplicate-provider error naming both providers (the
earlier-declared one first) and the shared key, returning no result. -/
theorem analyze_duplicate_error (parsed : ParseResult) (resolver : String → String)
    (h : HasDupKey parsed.Providers) :
    ∃ l1 d l2 p l3, parsed.Providers = l1 ++ d :: (l2 ++ p :: l3) ∧ keyOf d = keyOf p ∧
      Analyze parsed resolver = .error (.duplicate (keyOf p) d.Name p.Name) := by
  have hnn := not_nodup_of_hasDupKey h
  cases hb : buildIndex parsed.Providers with
  | ok res => exact absurd (buildIndex_ok_shape hb).2 hnn
  | error e =>
    obtain ⟨pfx, p, rest, dup, hdec, hlk, he⟩ := buildIndexGo_error_shape parsed.Providers [] e hb
    simp only [List.nil_append] at hlk
    obtain ⟨hdupmem, hdupkey⟩ := alookup_map_pairs hlk
    obtain ⟨l1, l2, hpfx⟩ := List.append_of_mem hdupmem
    refine ⟨l1, dup, l2, p, rest, ?_, hdupkey, ?_⟩
    · rw [hdec, hpfx]
      simp [List.append_assoc]
    · rw [← hdupkey] at he ⊢
      simp only [Analyze, hb, he]

def cexDupA : Provider :=
  ⟨"NewCfgA", .func, ⟨"Cfg", "pkg", false⟩, [], false, "pkg", "cfg"⟩

def cexDupB : Provider :=
  ⟨"NewCfgB", .func, ⟨"Cfg", "pkg", false⟩, [], false, "pkg", "cfg"⟩

def cexDup : ParseResult := ⟨[cexDupA, cexDupB], [], "main", "out", ""⟩

theorem analyze_duplicate_error_witness :
    ∃ l1 d l2 p l3, cexDup.Providers = l1 ++ d :: (l2 ++ p :: l3) ∧ keyOf d = keyOf p ∧
      Analyze cexDup (fun s => s) = .error (.duplicate (keyOf p) d.Name p.Name) :=
  analyze_duplicate_error cexDup (fun s => s) ⟨0, 1, by decide, by decide, by decide, by decide⟩

/-! ### C3: missing-dependency aggregation -/


theorem mem_depMissingOfProvider (byType : List (String × Provider)) (p : Provider) (s : String) :
    s ∈ depMissingOfProvider byType p ↔
      ∃ d, d ∈ p.Dependencies ∧ alookup d.type.Key byType = none ∧
        s = p.Name ++ " requires " ++ d.type.Key := by
  simp only [depMissingOfProvider, List.mem_filterMap]
  constructor
  · rintro ⟨d, hd, hsome⟩
    cases hlk : alookup d.type.Key byType with
    | some q => rw [hlk] at hsome; simp at hsome
    | none =>
      rw [hlk] at hsome
      simp only [Option.isSome_none, Bool.false_eq_true, if_false, Option.some.injEq] at hsome
      exact ⟨d, hd, hlk, hsome.symm⟩
  · rintro ⟨d, hd, hnone, hs⟩
    refine ⟨d, hd, ?_⟩
    rw [hnone, hs]
    simp

theorem mem_depMissingOfInvocation (byType : List (String × Provider)) (inv : Invocation) (s : String) :
    s ∈ depMissingOfInvocation byType inv ↔
      ∃ t, t ∈ inv.Dependencies ∧ alookup t.Key byType = none ∧
        s = inv.Name ++ " requires " ++ t.Key := by
  simp only [depMissingOfInvocation, List.mem_filterMap]
  constructor
  · rintro ⟨t, ht, hsome⟩
    cases hlk : alookup t.Key byType with
    | some q => rw [hlk] at hsome; simp at hsome
    | none =>
      rw [hlk] at hsome
      simp only [Option.isSome_none, Bool.false_eq_true, if_false, Option.some.injEq] at hsome
      exact ⟨t, ht, hlk, hsome.symm⟩
  · rintro ⟨t, ht, hnone, hs⟩
    refine ⟨t, ht, ?_⟩
    rw [hnone, hs]
    simp

theorem alookup_pairs_eq_none_iff (providers : List Provider) (k : String) :
    alookup k (providers.map fun p => (keyOf p, p)) = none ↔
      ¬ ∃ q, q ∈ providers ∧ keyOf q = k := by
  rw [alookup_eq_none]
  simp only [List.map_map, List.mem_map, Function.comp]

theorem mem_missingList_iff (providers : List Provider) (invocations : List Invocation)
    (byType : List (String × Provider)) (hbt : byType = providers.map fun p => (keyOf p, p))
    (s : String) :
    s ∈ missingList providers invocations byType ↔
      ((∃ p, p ∈ providers ∧ ∃ d, d ∈ p.Dependencies ∧
          (¬ ∃ q, q ∈ providers ∧ keyOf q = d.type.Key) ∧ s = p.Name ++ " requires " ++ d.type.Key) ∨
       (∃ inv, inv ∈ invocations ∧ ∃ t, t ∈ inv.Dependencies ∧
          (¬ ∃ q, q ∈ providers ∧ keyOf q = t.Key) ∧ s = inv.Name ++ " requires " ++ t.Key)) := by
  subst hbt
  simp only [missingList, List.mem_append, List.mem_flatMap, mem_depMissingOfProvider,
    mem_depMissingOfInvocation, alookup_pairs_eq_none_iff]

/-- C3: with no duplicate provider keys, `missingList` contains exactly one
entry (naming the requester and the unmet key) for every provider dependency
and invocation requirement whose key no provider provides; Analyze fails with
the single missing-dependency error carrying that full list iff it is
nonempty, and the validation passes iff every dependency key is provided. -/
theorem analyze_missing_spec (parsed : ParseResult) (resolver : String → String)
    (byType : List (String × Provider)) (hidx : buildIndex parsed.Providers = .ok byType) :
    (∀ s, s ∈ missingList parsed.Providers parsed.Invocations byType ↔
      ((∃ p, p ∈ parsed.Providers ∧ ∃ d, d ∈ p.Dependencies ∧
          (¬ ∃ q, q ∈ parsed.Providers ∧ keyOf q = d.type.Key) ∧
          s = p.Name ++ " requires " ++ d.type.Key) ∨
       (∃ inv, inv ∈ parsed.Invocations ∧ ∃ t, t ∈ inv.Dependencies ∧
          (¬ ∃ q, q ∈ parsed.Providers ∧ keyOf q = t.Key) ∧
          s = inv.Name ++ " requires " ++ t.Key))) ∧
    (missingList parsed.Providers parsed.Invocations byType ≠ [] →
      Analyze parsed resolver =
        .error (.missing (missingList parsed.Providers parsed.Invocations byType))) ∧
    (missingList parsed.Providers parsed.Invocations byType = [] →
      validateDeps parsed.Providers parsed.Invocations byType = .ok ()) := by
  obtain ⟨hbt, hnd⟩ := buildIndex_ok_shape hidx
  refine ⟨fun s => mem_missingList_iff _ _ _ hbt s, ?_, ?_⟩
  · intro hne
    have hlen : 0 < (missingList parsed.Providers parsed.Invocations byType).length :=
      List.length_pos.mpr hne
    simp [Analyze, hidx, validateDeps, hlen]
  · intro heq
    simp [validateDeps, heq]

def cexMissP : Provider :=
  ⟨"P", .func, ⟨"A", "", false⟩, [⟨"", ⟨"X", "", false⟩⟩, ⟨"", ⟨"Y", "", false⟩⟩], false, "", "a"⟩

def cexMissInv : Invocation := ⟨"Inv", [⟨"Z", "", false⟩], false, ""⟩

def cexMiss : ParseResult := ⟨[cexMissP], [cexMissInv], "main", "out", ""⟩

theorem analyze_missing_spec_witness :
    Analyze cexMiss (fun s => s) =
      .error (.missing ["P requires X", "P requires Y", "Inv requires Z"]) := by
  have h := (analyze_missing_spec cexMiss (fun s => s) [("A", cexMissP)] rfl).2.1 (by decide)
  exact h

/-! ### C6: variable-name disambiguation formula -/

theorem resolveVarNamesGo_length : ∀ (l : List Provider) (used : List (String × Nat)),
    (resolveVarNamesGo used l).length = l.length := by
  intro l
  induction l with
  | nil => intro used; rfl
  | cons p rest ih => intro used; simp [resolveVarNamesGo, ih]

/-- The number of providers before index i carrying the given base name. -/
def priorCount (l : List Provider) (i : Nat) (base : String) : Nat :=
  ((l.take i).filter fun q => q.VarName = base).length

theorem priorCount_cons_succ (p : Provider) (rest : List Provider) (i : Nat) (base : String) :
    priorCount (p :: rest) (i + 1) base =
      (if p.VarName = base then 1 else 0) + priorCount rest i base := by
  simp only [priorCount, List.take_succ_cons, List.filter_cons]
  by_cases h : p.VarName = base
  · simp [h, Nat.add_comm]
  · simp [h]

theorem alookup_cons {α : Type} (k k2 : String) (v : α) (rest : List (String × α)) :
    alookup k ((k2, v) :: rest) = if k = k2 then some v else alookup k rest := rfl

theorem resolveVarNamesGo_getElem : ∀ (l : List Provider) (used : List (String × Nat)) (i : Nat),
    (resolveVarNamesGo used l)[i]? =
      (l[i]?).map fun p =>
        (fun c => if c = 0 then p else { p with VarName := p.VarName ++ toDecimal c })
          ((alookup p.VarName used).getD 0 + priorCount l i p.VarName) := by
  intro l
  induction l with
  | nil => intro used i; simp [resolveVarNamesGo]
  | cons p rest ih =>
    intro used i
    have hunf : resolveVarNamesGo used (p :: rest) =
        (if (alookup p.VarName used).getD 0 = 0 then p
         else { p with VarName := p.VarName ++ toDecimal ((alookup p.VarName used).getD 0) }) ::
        resolveVarNamesGo ((p.VarName, (alookup p.VarName used).getD 0 + 1) :: used) rest := rfl
    cases i with
    | zero =>
      rw [hunf]
      simp [priorCount]
    | succ i =>
      rw [hunf]
      simp only [List.getElem?_cons_succ]
      rw [ih ((p.VarName, (alookup p.VarName used).getD 0 + 1) :: used) i]
      cases hrest : rest[i]? with
      | none => simp
      | some q =>
        simp only [Option.map]
        have hcnt : (alookup q.VarName
              ((p.VarName, (alookup p.VarName used).getD 0 + 1) :: used)).getD 0 +
              priorCount rest i q.VarName =
            (alookup q.VarName used).getD 0 + priorCount (p :: rest) (i + 1) q.VarName := by
          rw [priorCount_cons_succ, alookup_cons]
          by_cases hb : q.VarName = p.VarName
          · rw [if_pos hb, if_pos hb.symm, hb]
            simp only [Option.getD_some]
            omega
          · rw [if_neg hb, if_neg (fun h => hb h.symm)]
            omega
        rw [hcnt]

/-- C6: name disambiguation walks the final provider order once; the provider
at index i keeps its base VarName when no earlier provider in the order
carries the same base name, and otherwise receives the base name suffixed with
the 1-based count of earlier carriers (so three providers with base name cfg
yield cfg, cfg1, cfg2). -/
theorem resolveVarNames_disambiguation (providers : List Provider) (i : Nat) :
    ((resolveVarNames providers)[i]?).map (fun p => p.VarName) =
      (providers[i]?).map fun p =>
        if priorCount providers i p.VarName = 0 then p.VarName
        else p.VarName ++ toDecimal (priorCount providers i p.VarName) := by
  rw [resolveVarNames, resolveVarNamesGo_getElem]
  cases providers[i]? with
  | none => rfl
  | some p =>
    simp only [Option.map, alookup, Option.getD_none, Nat.zero_add]
    by_cases h : priorCount providers i p.VarName = 0 <;> simp [h]

theorem resolveVarNames_length (l : List Provider) :
    (resolveVarNames l).length = l.length := resolveVarNamesGo_length l []

/-- Renaming changes only VarName: every other field is preserved pointwise. -/
theorem resolveVarNames_getElem_fields (l : List Provider) (i : Nat) :
    ((resolveVarNames l)[i]?).map
        (fun p => (p.Name, p.Kind, p.ProvidedType, p.Dependencies, p.CanError, p.ImportPath)) =
      (l[i]?).map
        (fun p => (p.Name, p.Kind, p.ProvidedType, p.Dependencies, p.CanError, p.ImportPath)) := by
  rw [resolveVarNames, resolveVarNamesGo_getElem]
  cases l[i]? with
  | none => rfl
  | some p =>
    simp only [Option.map]
    by_cases h : (alookup p.VarName []).getD 0 + priorCount l i p.VarName = 0 <;> simp [h]

/-! ### Topological-sort machinery: invariants of the DFS -/

/-- The facts Analyze establishes about `byType` before topoSort runs: every
lookup hit is a provider with the looked-up key, and every provider can be
looked up by its own key. -/
def GoodIndex (byType : List (String × Provider)) (providers : List Provider) : Prop :=
  (∀ k q, alookup k byType = some q → q ∈ providers ∧ keyOf q = k) ∧
  (∀ p, p ∈ providers → alookup (keyOf p) byType = some p)

theorem goodIndex_of_buildIndex {providers : List Provider} {byType : List (String × Provider)}
    (h : buildIndex providers = .ok byType) : GoodIndex byType providers := by
  obtain ⟨hbt, hnd⟩ := buildIndex_ok_shape h
  subst hbt
  exact ⟨fun k q hlk => alookup_map_pairs hlk, fun p hp => alookup_map_pairs_self hnd p hp⟩

/-- Topological validity: wherever a provider sits in the list, each of its
looked-up dependency providers occurs strictly before it. -/
def TopoOk (byType : List (String × Provider)) (res : List Provider) : Prop :=
  ∀ pre p post, res = pre ++ p :: post → ∀ d, d ∈ p.Dependencies →
    ∀ q, alookup d.type.Key byType = some q → q ∈ pre

/-- The DFS state invariant. -/
structure TopoInv (byType : List (String × Provider)) (providers : List Provider)
    (st : TopoState) : Prop where
  visited_iff : ∀ k, k ∈ st.visited ↔ ∃ r, r ∈ st.result ∧ keyOf r = k
  keys_nodup : (st.result.map keyOf).Nodup
  result_lookup : ∀ r, r ∈ st.result → alookup (keyOf r) byType = some r
  result_mem : ∀ r, r ∈ st.result → r ∈ providers
  topo : TopoOk byType st.result
  disj : ∀ k, k ∈ st.inStack → k ∉ st.visited

/-- What a successful visit guarantees relative to its entry state. -/
def VisitOk (p : Provider) (st st2 : TopoState) : Prop :=
  st2.inStack = st.inStack ∧ (∀ k, k ∈ st.visited → k ∈ st2.visited) ∧
  keyOf p ∈ st2.visited ∧ ∃ ext, st2.result = st.result ++ ext

/-- Shape of every cycle error the DFS can produce: the reported path closes
with a key that already occurs earlier in it. -/
def CircShape (e : AnalyzeError) : Prop :=
  ∃ cp k, e = .circular cp ∧ cp.getLast? = some k ∧ k ∈ cp.dropLast

/-- The keys of the index. -/
def KeyList (byType : List (String × Provider)) : List String := byType.map Prod.fst

/-- Preconditions of a visit call. -/
def VisitPre (byType : List (String × Provider)) (providers : List Provider)
    (p : Provider) (path : List String) (st : TopoState) (fuel : Nat) : Prop :=
  p ∈ providers ∧ TopoInv byType providers st ∧ (∀ k, k ∈ st.inStack ↔ k ∈ path) ∧
  st.inStack.Nodup ∧ (∀ k, k ∈ st.inStack → k ∈ KeyList byType) ∧
  keyOf p ∈ KeyList byType ∧ byType.length + 1 ≤ fuel + st.inStack.length

theorem nodup_subset_length_le {l l2 : List String} (hnd : l.Nodup) (hsub : ∀ k, k ∈ l → k ∈ l2) :
    l.length ≤ l2.length := by
  calc l.length = l.toFinset.card := (List.toFinset_card_of_nodup hnd).symm
    _ ≤ l2.toFinset.card := Finset.card_le_card (fun x hx => by
        rw [List.mem_toFinset] at hx ⊢
        exact hsub x hx)
    _ ≤ l2.length := List.toFinset_card_le l2

theorem snoc_decomp {α : Type} (res : List α) (x : α) (pre : List α) (p : α) (post : List α)
    (h : res ++ [x] = pre ++ p :: post) :
    (pre = res ∧ p = x ∧ post = []) ∨ ∃ post2, post = post2 ++ [x] ∧ res = pre ++ p :: post2 := by
  rcases List.eq_nil_or_concat post with hpost | ⟨post2, a, hpost⟩
  · subst hpost
    left
    have hlen : res.length = pre.length := by
      have := congrArg List.length h
      simp at this
      omega
    obtain ⟨h1, h2⟩ := List.append_inj h hlen
    simp only [List.cons.injEq] at h2
    exact ⟨h1.symm, h2.1.symm, rfl⟩
  · rw [List.concat_eq_append] at hpost
    subst hpost
    right
    have h2 : res ++ [x] = (pre ++ p :: post2) ++ [a] := by
      rw [h]
      simp [List.append_assoc]
    have hlen : res.length = (pre ++ p :: post2).length := by
      have := congrArg List.length h2
      simp at this
      simp only [List.length_append, List.length_cons]
      omega
    obtain ⟨h3, h4⟩ := List.append_inj h2 hlen
    simp only [List.cons.injEq] at h4
    obtain ⟨h5, -⟩ := h4
    subst h5
    exact ⟨post2, rfl, h3⟩

theorem topoOk_nil (byType : List (String × Provider)) : TopoOk byType [] := by
  intro pre p post heq
  exact absurd heq.symm (List.append_ne_nil_of_right_ne_nil pre (by simp))

theorem topoOk_append {byType : List (String × Provider)} {res : List Provider} {p : Provider}
    (h : TopoOk byType res)
    (hdeps : ∀ d, d ∈ p.Dependencies → ∀ q, alookup d.type.Key byType = some q → q ∈ res) :
    TopoOk byType (res ++ [p]) := by
  intro pre r post heq d hd q hq
  rcases snoc_decomp res p pre r post heq with ⟨h1, h2, h3⟩ | ⟨post2, hpost, hres⟩
  · subst h1; subst h2
    exact hdeps d hd q hq
  · exact h pre r post2 hres d hd q hq

theorem topoInv_init (byType : List (String × Provider)) (providers : List Provider) :
    TopoInv byType providers ⟨[], [], []⟩ := by
  refine ⟨?_, ?_, ?_, ?_, ?_, ?_⟩
  · intro k; simp
  · simp
  · intro r hr; simp at hr
  · intro r hr; simp at hr
  · exact topoOk_nil byType
  · intro k hk; simp at hk

theorem visitDeps_spec (byType : List (String × Provider)) (providers : List Provider)
    (hg : GoodIndex byType providers) (fuelv : Nat)
    (v : Provider → List String → TopoState → Except AnalyzeError TopoState)
    (hv : ∀ p path st, VisitPre byType providers p path st fuelv →
      (∀ st2, v p path st = .ok st2 → TopoInv byType providers st2 ∧ VisitOk p st st2) ∧
      (∀ e, v p path st = .error e → CircShape e)) :
    ∀ (deps : List Dependency) (path : List String) (st : TopoState),
      TopoInv byType providers st → (∀ k, k ∈ st.inStack ↔ k ∈ path) →
      st.inStack.Nodup → (∀ k, k ∈ st.inStack → k ∈ KeyList byType) →
      byType.length + 1 ≤ fuelv + st.inStack.length →
      (∀ st2, visitDeps byType v deps path st = .ok st2 →
        TopoInv byType providers st2 ∧ st2.inStack = st.inStack ∧
        (∀ k, k ∈ st.visited → k ∈ st2.visited) ∧ (∃ ext, st2.result = st.result ++ ext) ∧
        (∀ d, d ∈ deps → ∀ q, alookup d.type.Key byType = some q → keyOf q ∈ st2.visited)) ∧
      (∀ e, visitDeps byType v deps path st = .error e → CircShape e) := by
  intro deps
  induction deps with
  | nil =>
    intro path st hinv hiff hnd hsub hbound
    constructor
    · intro st2 h
      simp only [visitDeps, Except.ok.injEq] at h
      subst h
      exact ⟨hinv, rfl, fun k hk => hk, ⟨[], by simp⟩, fun d hd => absurd hd (by simp)⟩
    · intro e h
      simp [visitDeps] at h
  | cons dep rest ih =>
    intro path st hinv hiff hnd hsub hbound
    cases hlk : alookup dep.type.Key byType with
    | none =>
      have hred : visitDeps byType v (dep :: rest) path st = visitDeps byType v rest path st := by
        simp [visitDeps, hlk]
      rw [hred]
      obtain ⟨okpart, errpart⟩ := ih path st hinv hiff hnd hsub hbound
      refine ⟨?_, errpart⟩
      intro st2 h
      obtain ⟨a, b, c, d2, e2⟩ := okpart st2 h
      refine ⟨a, b, c, d2, ?_⟩
      intro d hd q hq
      rcases List.mem_cons.mp hd with hd1 | hd1
      · subst hd1
        rw [hlk] at hq
        exact absurd hq (by simp)
      · exact e2 d hd1 q hq
    | some q =>
      obtain ⟨hqmem, hqkey⟩ := hg.1 _ _ hlk
      have hqkeys : keyOf q ∈ KeyList byType := by
        rw [hqkey]
        have hs : (alookup dep.type.Key byType).isSome = true := by rw [hlk]; rfl
        exact (alookup_isSome _ _).mp hs
      cases hvres : v q path st with
      | error e =>
        have hred : visitDeps byType v (dep :: rest) path st = .error e := by
          simp [visitDeps, hlk, hvres]
        rw [hred]
        constructor
        · intro st2 h
          exact absurd h (by simp)
        · intro e2 h
          simp only [Except.error.injEq] at h
          subst h
          exact (hv q path st ⟨hqmem, hinv, hiff, hnd, hsub, hqkeys, hbound⟩).2 e hvres
      | ok stm =>
        have hred : visitDeps byType v (dep :: rest) path st = visitDeps byType v rest path stm := by
          simp [visitDeps, hlk, hvres]
        rw [hred]
        have hspec := (hv q path st ⟨hqmem, hinv, hiff, hnd, hsub, hqkeys, hbound⟩).1 stm hvres
        obtain ⟨hinvm, hstkm, hmono, hkeyq, ext1, hext1⟩ := hspec
        have hiffm : ∀ k, k ∈ stm.inStack ↔ k ∈ path := by rw [hstkm]; exact hiff
        have hndm : stm.inStack.Nodup := by rw [hstkm]; exact hnd
        have hsubm : ∀ k, k ∈ stm.inStack → k ∈ KeyList byType := by rw [hstkm]; exact hsub
        have hboundm : byType.length + 1 ≤ fuelv + stm.inStack.length := by rw [hstkm]; exact hbound
        obtain ⟨okpart, errpart⟩ := ih path stm hinvm hiffm hndm hsubm hboundm
        refine ⟨?_, errpart⟩
        intro st2 h
        obtain ⟨a, b, c, ⟨ext2, hext2⟩, e2⟩ := okpart st2 h
        refine ⟨a, by rw [b, hstkm], fun k hk => c k (hmono k hk), ?_, ?_⟩
        · exact ⟨ext1 ++ ext2, by rw [hext2, hext1, List.append_assoc]⟩
        · intro d hd q2 hq2
          rcases List.mem_cons.mp hd with hd1 | hd1
          · subst hd1
            rw [hlk] at hq2
            simp only [Option.some.injEq] at hq2
            subst hq2
            exact c _ hkeyq
          · exact e2 d hd1 q2 hq2

theorem visit_spec (byType : List (String × Provider)) (providers : List Provider)
    (hg : GoodIndex byType providers) :
    ∀ (fuel : Nat) (p : Provider) (path : List String) (st : TopoState),
      VisitPre byType providers p path st fuel →
      (∀ st2, visit byType fuel p path st = .ok st2 →
        TopoInv byType providers st2 ∧ VisitOk p st st2) ∧
      (∀ e, visit byType fuel p path st = .error e → CircShape e) := by
  intro fuel
  induction fuel with
  | zero =>
    intro p path st hpre
    obtain ⟨hpmem, hinv, hiff, hnd, hsub, hpkeys, hbound⟩ := hpre
    have hlen : st.inStack.length ≤ byType.length := by
      have := nodup_subset_length_le hnd hsub
      simpa [KeyList] using this
    exact absurd hbound (by omega)
  | succ fuel ihf =>
    intro p path st hpre
    obtain ⟨hpmem, hinv, hiff, hnd, hsub, hpkeys, hbound⟩ := hpre
    by_cases hin : p.ProvidedType.Key ∈ st.inStack
    · have hred : visit byType (fuel + 1) p path st =
          .error (.circular (path ++ [p.ProvidedType.Key])) := by
        show visitF byType (visit byType fuel) p path st = _
        simp [visitF, hin]
      constructor
      · intro st2 h
        rw [hred] at h
        exact absurd h (by simp)
      · intro e h
        rw [hred] at h
        simp only [Except.error.injEq] at h
        subst h
        refine ⟨path ++ [p.ProvidedType.Key], p.ProvidedType.Key, rfl, ?_, ?_⟩
        · simp
        · rw [List.dropLast_concat]
          exact (hiff _).mp hin
    · by_cases hvd : p.ProvidedType.Key ∈ st.visited
      · have hred : visit byType (fuel + 1) p path st = .ok st := by
          show visitF byType (visit byType fuel) p path st = _
          simp [visitF, hin, hvd]
        constructor
        · intro st2 h
          rw [hred] at h
          simp only [Except.ok.injEq] at h
          subst h
          exact ⟨hinv, rfl, fun k hk => hk, hvd, ⟨[], by simp⟩⟩
        · intro e h
          rw [hred] at h
          exact absurd h (by simp)
      · have hinv1 : TopoInv byType providers
            { st with inStack := p.ProvidedType.Key :: st.inStack } := by
          refine ⟨hinv.visited_iff, hinv.keys_nodup, hinv.result_lookup, hinv.result_mem,
            hinv.topo, ?_⟩
          intro k hk
          rcases List.mem_cons.mp hk with hk1 | hk1
          · subst hk1; exact hvd
          · exact hinv.disj k hk1
        have hiff1 : ∀ k, k ∈ ({ st with inStack := p.ProvidedType.Key :: st.inStack } : TopoState).inStack ↔
            k ∈ path ++ [p.ProvidedType.Key] := by
          intro k
          simp only [List.mem_cons, List.mem_append, List.mem_singleton]
          rw [← hiff k]
          tauto
        have hnd1 : ({ st with inStack := p.ProvidedType.Key :: st.inStack } : TopoState).inStack.Nodup := by
          simp only [List.nodup_cons]
          exact ⟨hin, hnd⟩
        have hsub1 : ∀ k, k ∈ ({ st with inStack := p.ProvidedType.Key :: st.inStack } : TopoState).inStack →
            k ∈ KeyList byType := by
          intro k hk
          rcases List.mem_cons.mp hk with hk1 | hk1
          · subst hk1; exact hpkeys
          · exact hsub k hk1
        have hbound1 : byType.length + 1 ≤
            fuel + ({ st with inStack := p.ProvidedType.Key :: st.inStack } : TopoState).inStack.length := by
          simp only [List.length_cons]
          omega
        have hdspec := visitDeps_spec byType providers hg fuel (visit byType fuel) ihf
          p.Dependencies (path ++ [p.ProvidedType.Key])
          { st with inStack := p.ProvidedType.Key :: st.inStack }
          hinv1 hiff1 hnd1 hsub1 hbound1
        cases hdres : visitDeps byType (visit byType fuel) p.Dependencies
            (path ++ [p.ProvidedType.Key]) { st with inStack := p.ProvidedType.Key :: st.inStack } with
        | error e =>
          have hred : visit byType (fuel + 1) p path st = .error e := by
            show visitF byType (visit byType fuel) p path st = _
            simp [visitF, hin, hvd, hdres]
          constructor
          · intro st2 h
            rw [hred] at h
            exact absurd h (by simp)
          · intro e2 h
            rw [hred] at h
            simp only [Except.error.injEq] at h
            subst h
            exact hdspec.2 e hdres
        | ok st2 =>
          obtain ⟨hinv2, hstk2, hmono2, ⟨ext2, hext2⟩, hdepsvis⟩ := hdspec.1 st2 hdres
          have hred : visit byType (fuel + 1) p path st =
              .ok { visited := p.ProvidedType.Key :: st2.visited,
                    inStack := st2.inStack.erase p.ProvidedType.Key,
                    result := st2.result ++ [p] } := by
            show visitF byType (visit byType fuel) p path st = _
            simp [visitF, hin, hvd, hdres]
          constructor
          · intro st3 h
            rw [hred] at h
            simp only [Except.ok.injEq] at h
            subst h
            have herase : st2.inStack.erase p.ProvidedType.Key = st.inStack := by
              rw [hstk2]
              exact List.erase_cons_head _ _
            have hkeynotvis : p.ProvidedType.Key ∉ st2.visited := by
              intro hkv
              exact hinv2.disj p.ProvidedType.Key (by rw [hstk2]; exact List.mem_cons_self _ _) hkv
            have hkeynotres : p.ProvidedType.Key ∉ st2.result.map keyOf := by
              intro hkr
              rcases List.mem_map.mp hkr with ⟨r, hr, hrk⟩
              exact hkeynotvis ((hinv2.visited_iff _).mpr ⟨r, hr, hrk⟩)
            have hdepsres : ∀ d, d ∈ p.Dependencies → ∀ q, alookup d.type.Key byType = some q →
                q ∈ st2.result := by
              intro d hd q hq
              have hkv := hdepsvis d hd q hq
              obtain ⟨r, hr, hrk⟩ := (hinv2.visited_iff _).mp hkv
              have hlr := hinv2.result_lookup r hr
              rw [hrk] at hlr
              have hqk := (hg.1 _ _ hq).2
              rw [← hqk] at hq
              rw [hq] at hlr
              simp only [Option.some.injEq] at hlr
              rw [hlr]
              exact hr
            refine ⟨⟨?_, ?_, ?_, ?_, ?_, ?_⟩, ?_, ?_, ?_, ?_⟩
            · intro k
              simp only [List.mem_cons]
              constructor
              · rintro (hk | hk)
                · exact ⟨p, by simp, by rw [hk]; rfl⟩
                · obtain ⟨r, hr, hrk⟩ := (hinv2.visited_iff k).mp hk
                  exact ⟨r, by simp [hr], hrk⟩
              · rintro ⟨r, hr, hrk⟩
                rcases List.mem_append.mp hr with hr1 | hr1
                · exact Or.inr ((hinv2.visited_iff k).mpr ⟨r, hr1, hrk⟩)
                · simp only [List.mem_singleton] at hr1
                  subst hr1
                  exact Or.inl hrk.symm
            · simp only [List.map_append, List.map_cons, List.map_nil]
              refine List.Nodup.append hinv2.keys_nodup (List.nodup_singleton _) ?_
              intro x hx hmem
              simp only [List.mem_singleton] at hmem
              subst hmem
              exact hkeynotres hx
            · intro r hr
              rcases List.mem_append.mp hr with hr1 | hr1
              · exact hinv2.result_lookup r hr1
              · simp only [List.mem_singleton] at hr1
                subst hr1
                exact hg.2 r hpmem
            · intro r hr
              rcases List.mem_append.mp hr with hr1 | hr1
              · exact hinv2.result_mem r hr1
              · simp only [List.mem_singleton] at hr1
                subst hr1
                exact hpmem
            · exact topoOk_append hinv2.topo hdepsres
            · intro k hk
              simp only [List.mem_cons]
              rw [herase] at hk
              push_neg
              constructor
              · intro hkeq
                subst hkeq
                exact hin hk
              · intro hkv
                exact hinv2.disj k (by rw [hstk2]; exact List.mem_cons_of_mem _ hk) hkv
            · exact herase
            · intro k hk
              exact List.mem_cons_of_mem _ (hmono2 k hk)
            · exact List.mem_cons_self _ _
            · exact ⟨ext2 ++ [p], by rw [hext2]; simp [List.append_assoc]⟩
          · intro e h
            rw [hred] at h
            exact absurd h (by simp)

theorem visitInvDeps_spec (byType : List (String × Provider)) (providers : List Provider)
    (hg : GoodIndex byType providers) (fuel : Nat) (hfuel : byType.length + 1 ≤ fuel) :
    ∀ (deps : List TypeRef) (st : TopoState), TopoInv byType providers st → st.inStack = [] →
      (∀ st2, visitInvDeps byType fuel deps st = .ok st2 →
        TopoInv byType providers st2 ∧ st2.inStack = [] ∧
        (∀ k, k ∈ st.visited → k ∈ st2.visited)) ∧
      (∀ e, visitInvDeps byType fuel deps st = .error e → CircShape e) := by
  intro deps
  induction deps with
  | nil =>
    intro st hinv hstk
    constructor
    · intro st2 h
      simp only [visitInvDeps, Except.ok.injEq] at h
      subst h
      exact ⟨hinv, hstk, fun k hk => hk⟩
    · intro e h
      simp [visitInvDeps] at h
  | cons t rest ih =>
    intro st hinv hstk
    cases hlk : alookup t.Key byType with
    | none =>
      have hred : visitInvDeps byType fuel (t :: rest) st = visitInvDeps byType fuel rest st := by
        simp [visitInvDeps, hlk]
      rw [hred]
      exact ih st hinv hstk
    | some q =>
      obtain ⟨hqmem, hqkey⟩ := hg.1 _ _ hlk
      have hqkeys : keyOf q ∈ KeyList byType := by
        rw [hqkey]
        have hs : (alookup t.Key byType).isSome = true := by rw [hlk]; rfl
        exact (alookup_isSome _ _).mp hs
      have hpre : VisitPre byType providers q [] st fuel := by
        refine ⟨hqmem, hinv, ?_, ?_, ?_, hqkeys, ?_⟩
        · intro k; rw [hstk]
        · rw [hstk]; exact List.nodup_nil
        · intro k hk; rw [hstk] at hk; simp at hk
        · rw [hstk]; simpa using hfuel
      cases hvres : visit byType fuel q [] st with
      | error e =>
        have hred : visitInvDeps byType fuel (t :: rest) st = .error e := by
          simp [visitInvDeps, hlk, hvres]
        rw [hred]
        constructor
        · intro st2 h
          exact absurd h (by simp)
        · intro e2 h
          simp only [Except.error.injEq] at h
          subst h
          exact (visit_spec byType providers hg fuel q [] st hpre).2 e hvres
      | ok stm =>
        obtain ⟨hinvm, hstkm, hmono, hkeyq, ext1, hext1⟩ :=
          (visit_spec byType providers hg fuel q [] st hpre).1 stm hvres
        have hred : visitInvDeps byType fuel (t :: rest) st = visitInvDeps byType fuel rest stm := by
          simp [visitInvDeps, hlk, hvres]
        rw [hred]
        have hstkm0 : stm.inStack = [] := by rw [hstkm, hstk]
        obtain ⟨okpart, errpart⟩ := ih stm hinvm hstkm0
        refine ⟨?_, errpart⟩
        intro st2 h
        obtain ⟨a, b, c⟩ := okpart st2 h
        exact ⟨a, b, fun k hk => c k (hmono k hk)⟩

theorem visitInvocations_spec (byType : List (String × Provider)) (providers : List Provider)
    (hg : GoodIndex byType providers) (fuel : Nat) (hfuel : byType.length + 1 ≤ fuel) :
    ∀ (invs : List Invocation) (st : TopoState), TopoInv byType providers st → st.inStack = [] →
      (∀ st2, visitInvocations byType fuel invs st = .ok st2 →
        TopoInv byType providers st2 ∧ st2.inStack = [] ∧
        (∀ k, k ∈ st.visited → k ∈ st2.visited)) ∧
      (∀ e, visitInvocations byType fuel invs st = .error e → CircShape e) := by
  intro invs
  induction invs with
  | nil =>
    intro st hinv hstk
    constructor
    · intro st2 h
      simp only [visitInvocations, Except.ok.injEq] at h
      subst h
      exact ⟨hinv, hstk, fun k hk => hk⟩
    · intro e h
      simp [visitInvocations] at h
  | cons inv rest ih =>
    intro st hinv hstk
    cases hdres : visitInvDeps byType fuel inv.Dependencies st with
    | error e =>
      have hred : visitInvocations byType fuel (inv :: rest) st = .error e := by
        simp [visitInvocations, hdres]
      rw [hred]
      constructor
      · intro st2 h
        exact absurd h (by simp)
      · intro e2 h
        simp only [Except.error.injEq] at h
        subst h
        exact (visitInvDeps_spec byType providers hg fuel hfuel inv.Dependencies st hinv hstk).2 e hdres
    | ok stm =>
      obtain ⟨hinvm, hstkm, hmono⟩ :=
        (visitInvDeps_spec byType providers hg fuel hfuel inv.Dependencies st hinv hstk).1 stm hdres
      have hred : visitInvocations byType fuel (inv :: rest) st = visitInvocations byType fuel rest stm := by
        simp [visitInvocations, hdres]
      rw [hred]
      obtain ⟨okpart, errpart⟩ := ih stm hinvm hstkm
      refine ⟨?_, errpart⟩
      intro st2 h
      obtain ⟨a, b, c⟩ := okpart st2 h
      exact ⟨a, b, fun k hk => c k (hmono k hk)⟩

theorem visitProviders_spec (byType : List (String × Provider)) (providers : List Provider)
    (hg : GoodIndex byType providers) (fuel : Nat) (hfuel : byType.length + 1 ≤ fuel) :
    ∀ (l : List Provider) (st : TopoState), (∀ p, p ∈ l → p ∈ providers) →
      TopoInv byType providers st → st.inStack = [] →
      (∀ st2, visitProviders byType fuel l st = .ok st2 →
        TopoInv byType providers st2 ∧ st2.inStack = [] ∧
        (∀ k, k ∈ st.visited → k ∈ st2.visited) ∧
        (∀ p, p ∈ l → keyOf p ∈ st2.visited)) ∧
      (∀ e, visitProviders byType fuel l st = .error e → CircShape e) := by
  intro l
  induction l with
  | nil =>
    intro st hl hinv hstk
    constructor
    · intro st2 h
      simp only [visitProviders, Except.ok.injEq] at h
      subst h
      exact ⟨hinv, hstk, fun k hk => hk, fun p hp => absurd hp (by simp)⟩
    · intro e h
      simp [visitProviders] at h
  | cons p rest ih =>
    intro st hl hinv hstk
    have hpmem : p ∈ providers := hl p (List.mem_cons_self _ _)
    have hpkeys : keyOf p ∈ KeyList byType := by
      have hs : (alookup (keyOf p) byType).isSome = true := by rw [hg.2 p hpmem]; rfl
      exact (alookup_isSome _ _).mp hs
    have hpre : VisitPre byType providers p [] st fuel := by
      refine ⟨hpmem, hinv, ?_, ?_, ?_, hpkeys, ?_⟩
      · intro k; rw [hstk]
      · rw [hstk]; exact List.nodup_nil
      · intro k hk; rw [hstk] at hk; simp at hk
      · rw [hstk]; simpa using hfuel
    cases hvres : visit byType fuel p [] st with
    | error e =>
      have hred : visitProviders byType fuel (p :: rest) st = .error e := by
        simp [visitProviders, hvres]
      rw [hred]
      constructor
      · intro st2 h
        exact absurd h (by simp)
      · intro e2 h
        simp only [Except.error.injEq] at h
        subst h
        exact (visit_spec byType providers hg fuel p [] st hpre).2 e hvres
    | ok stm =>
      obtain ⟨hinvm, hstkm, hmono, hkeyp, ext1, hext1⟩ :=
        (visit_spec byType providers hg fuel p [] st hpre).1 stm hvres
      have hred : visitProviders byType fuel (p :: rest) st = visitProviders byType fuel rest stm := by
        simp [visitProviders, hvres]
      rw [hred]
      have hstkm0 : stm.inStack = [] := by rw [hstkm, hstk]
      obtain ⟨okpart, errpart⟩ := ih stm (fun p2 hp2 => hl p2 (List.mem_cons_of_mem _ hp2)) hinvm hstkm0
      refine ⟨?_, errpart⟩
      intro st2 h
      obtain ⟨a, b, c, d2⟩ := okpart st2 h
      refine ⟨a, b, fun k hk => c k (hmono k hk), ?_⟩
      intro p2 hp2
      rcases List.mem_cons.mp hp2 with hp3 | hp3
      · subst hp3
        exact c _ hkeyp
      · exact d2 p2 hp3

theorem topoSort_spec (providers : List Provider) (invocations : List Invocation)
    (byType : List (String × Provider)) (hg : GoodIndex byType providers) :
    (∀ out, topoSort providers invocations byType = .ok out →
      TopoOk byType out ∧ (out.map keyOf).Nodup ∧
      (∀ r, r ∈ out → r ∈ providers ∧ alookup (keyOf r) byType = some r) ∧
      (∀ p, p ∈ providers → ∃ r, r ∈ out ∧ keyOf r = keyOf p)) ∧
    (∀ e, topoSort providers invocations byType = .error e → CircShape e) := by
  have hinit := topoInv_init byType providers
  cases hires : visitInvocations byType (byType.length + 1) invocations ⟨[], [], []⟩ with
  | error e =>
    have hred : topoSort providers invocations byType = .error e := by
      simp [topoSort, hires]
    rw [hred]
    constructor
    · intro out h
      exact absurd h (by simp)
    · intro e2 h
      simp only [Except.error.injEq] at h
      subst h
      exact (visitInvocations_spec byType providers hg _ (by omega) invocations _ hinit rfl).2 e hires
  | ok st1 =>
    obtain ⟨hinv1, hstk1, hmono1⟩ :=
      (visitInvocations_spec byType providers hg _ (by omega) invocations _ hinit rfl).1 st1 hires
    cases hpres : visitProviders byType (byType.length + 1) providers st1 with
    | error e =>
      have hred : topoSort providers invocations byType = .error e := by
        simp [topoSort, hires, hpres]
      rw [hred]
      constructor
      · intro out h
        exact absurd h (by simp)
      · intro e2 h
        simp only [Except.error.injEq] at h
        subst h
        exact (visitProviders_spec byType providers hg _ (by omega) providers st1
          (fun p hp => hp) hinv1 hstk1).2 e hpres
    | ok st2 =>
      obtain ⟨hinv2, hstk2, hmono2, hall⟩ :=
        (visitProviders_spec byType providers hg _ (by omega) providers st1
          (fun p hp => hp) hinv1 hstk1).1 st2 hpres
      have hred : topoSort providers invocations byType = .ok st2.result := by
        simp [topoSort, hires, hpres]
      rw [hred]
      constructor
      · intro out h
        simp only [Except.ok.injEq] at h
        subst h
        refine ⟨hinv2.topo, hinv2.keys_nodup, ?_, ?_⟩
        · intro r hr
          exact ⟨hinv2.result_mem r hr, hinv2.result_lookup r hr⟩
        · intro p hp
          exact (hinv2.visited_iff _).mp (hall p hp)
      · intro e h
        exact absurd h (by simp)

/-- C8: when the provider index was built without duplicates and topoSort
succeeds, its output is a permutation of the input providers: every input
provider (reachable from an invocation or not) appears exactly once. -/
theorem topoSort_permutation (parsed : ParseResult) (byType : List (String × Provider))
    (out : List Provider) (hidx : buildIndex parsed.Providers = .ok byType)
    (h : topoSort parsed.Providers parsed.Invocations byType = .ok out) :
    out.Perm parsed.Providers := by
  have hg := goodIndex_of_buildIndex hidx
  have hprovnd : (parsed.Providers.map keyOf).Nodup := (buildIndex_ok_shape hidx).2
  obtain ⟨htopo, houtnd, hmem, hall⟩ := (topoSort_spec parsed.Providers parsed.Invocations byType hg).1 out h
  have hnd1 : out.Nodup := List.Nodup.of_map keyOf houtnd
  have hnd2 : parsed.Providers.Nodup := List.Nodup.of_map keyOf hprovnd
  refine (List.perm_ext_iff_of_nodup hnd1 hnd2).mpr ?_
  intro r
  constructor
  · intro hr
    exact (hmem r hr).1
  · intro hr
    obtain ⟨r2, hr2, hk2⟩ := hall r hr
    have hr2mem : r2 ∈ parsed.Providers := (hmem r2 hr2).1
    have : r2 = r := List.inj_on_of_nodup_map hprovnd hr2mem hr hk2
    rwa [← this]

def diaD : Provider := ⟨"NewD", .func, ⟨"D", "", false⟩, [], false, "", "d"⟩

def diaB : Provider := ⟨"NewB", .func, ⟨"B", "", false⟩, [⟨"", ⟨"D", "", false⟩⟩], false, "", "b"⟩

def diaC : Provider := ⟨"NewC", .func, ⟨"C", "", false⟩, [⟨"", ⟨"D", "", false⟩⟩], false, "", "c"⟩

def diaA : Provider :=
  ⟨"NewA", .func, ⟨"A", "", false⟩, [⟨"", ⟨"B", "", false⟩⟩, ⟨"", ⟨"C", "", false⟩⟩], false, "", "a"⟩

def diamond : ParseResult := ⟨[diaA, diaB, diaC, diaD], [], "main", "out", ""⟩

def diamondIndex : List (String × Provider) := [("A", diaA), ("B", diaB), ("C", diaC), ("D", diaD)]

theorem topoSort_permutation_witness :
    List.Perm [diaD, diaB, diaC, diaA] diamond.Providers :=
  topoSort_permutation diamond diamondIndex [diaD, diaB, diaC, diaA] rfl rfl

theorem list_decomp_at {α : Type} (l : List α) (i : Nat) (hi : i < l.length) :
    l = l.take i ++ l.get ⟨i, hi⟩ :: l.drop (i + 1) := by
  conv_lhs => rw [← List.take_append_drop i l]
  rw [List.drop_eq_get_cons hi]

theorem mem_take_get {α : Type} (l : List α) (i : Nat) (x : α) (hx : x ∈ l.take i) :
    ∃ (j : Nat) (hj : j < l.length), j < i ∧ l.get ⟨j, hj⟩ = x := by
  obtain ⟨j, hj, hget⟩ := List.mem_iff_getElem.mp hx
  have hjlen : j < min i l.length := by simpa using hj
  have hj2 : j < l.length := lt_of_lt_of_le hjlen (min_le_right _ _)
  refine ⟨j, hj2, lt_of_lt_of_le hjlen (min_le_left _ _), ?_⟩
  rw [← hget]
  simp [List.get_eq_getElem, List.getElem_take]

theorem resolveVarNames_get_proj (l : List Provider) (i : Nat) (hi : i < l.length)
    (hi2 : i < (resolveVarNames l).length) :
    ((resolveVarNames l).get ⟨i, hi2⟩).Name = (l.get ⟨i, hi⟩).Name ∧
    ((resolveVarNames l).get ⟨i, hi2⟩).ProvidedType = (l.get ⟨i, hi⟩).ProvidedType ∧
    ((resolveVarNames l).get ⟨i, hi2⟩).Dependencies = (l.get ⟨i, hi⟩).Dependencies ∧
    ((resolveVarNames l).get ⟨i, hi2⟩).ImportPath = (l.get ⟨i, hi⟩).ImportPath := by
  have h := resolveVarNames_getElem_fields l i
  rw [List.getElem?_eq_getElem hi2, List.getElem?_eq_getElem hi] at h
  simp only [Option.map, Option.some.injEq, Prod.mk.injEq] at h
  obtain ⟨h1, h2, h3, h4, h5, h6⟩ := h
  simp only [List.get_eq_getElem]
  exact ⟨h1, h3, h4, h6⟩

/-- Unpacking a successful Analyze run into its pipeline stages. -/
theorem analyze_ok_decomp (parsed : ParseResult) (resolver : String → String) (res : Result)
    (h : Analyze parsed resolver = .ok res) :
    ∃ byType ordered, buildIndex parsed.Providers = .ok byType ∧
      missingList parsed.Providers parsed.Invocations byType = [] ∧
      topoSort parsed.Providers parsed.Invocations byType = .ok ordered ∧
      res.Providers = resolveVarNames ordered ∧
      res.Invocations = parsed.Invocations ∧
      res.Imports = collectImports (resolveVarNames ordered) parsed.Invocations
        parsed.OutputImportPath resolver := by
  unfold Analyze at h
  cases hb : buildIndex parsed.Providers with
  | error e =>
    simp only [hb] at h
    exact absurd h (by simp)
  | ok byType =>
    simp only [hb] at h
    cases hv : validateDeps parsed.Providers parsed.Invocations byType with
    | error e =>
      simp only [hv] at h
      exact absurd h (by simp)
    | ok u =>
      simp only [hv] at h
      have hml : missingList parsed.Providers parsed.Invocations byType = [] := by
        by_contra hne
        have hlen : 0 < (missingList parsed.Providers parsed.Invocations byType).length :=
          List.length_pos.mpr hne
        simp [validateDeps, hlen] at hv
      cases ht : topoSort parsed.Providers parsed.Invocations byType with
      | error e =>
        simp only [ht] at h
        exact absurd h (by simp)
      | ok ordered =>
        simp only [ht, Except.ok.injEq] at h
        subst h
        exact ⟨byType, ordered, rfl, hml, ht, rfl, rfl, rfl⟩

/-- C1: on every successful Analyze run the returned provider order is
topologically valid: if the provider at index i declares a dependency whose
key some input provider q provides, then a provider with that key (q itself,
up to the VarName rewriting) occurs at a strictly smaller index. -/
theorem analyze_topological_order (parsed : ParseResult) (resolver : String → String) (res : Result)
    (h : Analyze parsed resolver = .ok res) :
    ∀ (i : Nat) (hi : i < res.Providers.length) (d : Dependency),
      d ∈ (res.Providers.get ⟨i, hi⟩).Dependencies →
      ∀ q, q ∈ parsed.Providers → q.ProvidedType.Key = d.type.Key →
      ∃ (j : Nat) (hj : j < res.Providers.length), j < i ∧
        (res.Providers.get ⟨j, hj⟩).ProvidedType = q.ProvidedType ∧
        (res.Providers.get ⟨j, hj⟩).Name = q.Name := by
  obtain ⟨byType, ordered, hidx, hml, htopo, hprov, hinv, himp⟩ :=
    analyze_ok_decomp parsed resolver res h
  have hg := goodIndex_of_buildIndex hidx
  obtain ⟨htopoOk, houtnd, hmem, hall⟩ :=
    (topoSort_spec parsed.Providers parsed.Invocations byType hg).1 ordered htopo
  intro i hi d hd q hq hqk
  have hlen : res.Providers.length = ordered.length := by
    rw [hprov, resolveVarNames_length]
  have hio : i < ordered.length := hlen ▸ hi
  have hi2 : i < (resolveVarNames ordered).length := by rw [resolveVarNames_length]; exact hio
  have hgetp : res.Providers.get ⟨i, hi⟩ = (resolveVarNames ordered).get ⟨i, hi2⟩ :=
    List.get_of_eq hprov ⟨i, hi⟩
  obtain ⟨-, -, hdeps, -⟩ := resolveVarNames_get_proj ordered i hio hi2
  have hdo : d ∈ (ordered.get ⟨i, hio⟩).Dependencies := by
    rw [← hdeps, ← hgetp]
    exact hd
  have hlq : alookup d.type.Key byType = some q := by
    have := hg.2 q hq
    rwa [keyOf, hqk] at this
  have hdecomp := list_decomp_at ordered i hio
  have hqpre : q ∈ ordered.take i :=
    htopoOk (ordered.take i) (ordered.get ⟨i, hio⟩) (ordered.drop (i + 1)) hdecomp d hdo q hlq
  obtain ⟨j, hjo, hji, hjget⟩ := mem_take_get ordered i q hqpre
  have hj2 : j < (resolveVarNames ordered).length := by rw [resolveVarNames_length]; exact hjo
  have hjr : j < res.Providers.length := by rw [hlen]; exact hjo
  refine ⟨j, hjr, hji, ?_, ?_⟩
  · obtain ⟨-, hpt, -, -⟩ := resolveVarNames_get_proj ordered j hjo hj2
    have hgetj : res.Providers.get ⟨j, hjr⟩ = (resolveVarNames ordered).get ⟨j, hj2⟩ :=
      List.get_of_eq hprov ⟨j, hjr⟩
    rw [hgetj, hpt, hjget]
  · obtain ⟨hnm, -, -, -⟩ := resolveVarNames_get_proj ordered j hjo hj2
    have hgetj : res.Providers.get ⟨j, hjr⟩ = (resolveVarNames ordered).get ⟨j, hj2⟩ :=
      List.get_of_eq hprov ⟨j, hjr⟩
    rw [hgetj, hnm, hjget]

def diamondRes : Result := ⟨[diaD, diaB, diaC, diaA], [], "main", "out", []⟩

theorem analyze_topological_order_witness :
    ∃ (j : Nat) (hj : j < diamondRes.Providers.length), j < 3 ∧
      (diamondRes.Providers.get ⟨j, hj⟩).ProvidedType = diaB.ProvidedType ∧
      (diamondRes.Providers.get ⟨j, hj⟩).Name = diaB.Name :=
  analyze_topological_order diamond (fun s => s) diamondRes rfl 3 (by decide)
    ⟨"", ⟨"B", "", false⟩⟩ (by decide) diaB (by decide) (by decide)

/-! ### C2: cycle detection -/

/-- One step of the depends-on relation over keys: the provider of key a
declares a dependency whose key is b. -/
def DependsOn (byType : List (String × Provider)) (a b : String) : Prop :=
  ∃ p, alookup a byType = some p ∧ ∃ d, d ∈ p.Dependencies ∧ d.type.Key = b

theorem no_cycle_of_topoSort_ok (providers : List Provider) (invocations : List Invocation)
    (byType : List (String × Provider)) (out : List Provider) (hg : GoodIndex byType providers)
    (h : topoSort providers invocations byType = .ok out) :
    ∀ k, ¬ Relation.TransGen (DependsOn byType) k k := by
  obtain ⟨htopo, hnd, hmem, hall⟩ := (topoSort_spec providers invocations byType hg).1 out h
  have hstep : ∀ a b, DependsOn byType a b → (∃ qb, alookup b byType = some qb) →
      ∀ (i : Nat) (hi : i < out.length), keyOf (out.get ⟨i, hi⟩) = a →
      ∃ (j : Nat) (hj : j < out.length), j < i ∧ keyOf (out.get ⟨j, hj⟩) = b := by
    rintro a b ⟨p, hpa, d, hd, hdk⟩ ⟨qb, hqb⟩ i hi hk
    have hpi : out.get ⟨i, hi⟩ = p := by
      have hlk := (hmem (out.get ⟨i, hi⟩) (List.get_mem out i hi)).2
      rw [hk, hpa] at hlk
      have := Option.some.inj hlk
      simp only [List.get_eq_getElem]
      exact this.symm
    have hqbl : alookup d.type.Key byType = some qb := by rw [hdk]; exact hqb
    have hqpre : qb ∈ out.take i :=
      htopo (out.take i) (out.get ⟨i, hi⟩) (out.drop (i + 1)) (list_decomp_at out i hi) d
        (by rw [hpi]; exact hd) qb hqbl
    obtain ⟨j, hj, hji, hjget⟩ := mem_take_get out i qb hqpre
    refine ⟨j, hj, hji, ?_⟩
    rw [hjget]
    exact (hg.1 _ _ hqb).2
  have hchain : ∀ a b, Relation.TransGen (DependsOn byType) a b →
      (∃ qb, alookup b byType = some qb) →
      ∀ (i : Nat) (hi : i < out.length), keyOf (out.get ⟨i, hi⟩) = a →
      ∃ (j : Nat) (hj : j < out.length), j < i ∧ keyOf (out.get ⟨j, hj⟩) = b := by
    intro a b htg
    induction htg with
    | single hab => exact hstep _ _ hab
    | tail hab hbc ih =>
      intro hqc i hi hk
      obtain ⟨pb, hpb, hrest⟩ := hbc
      obtain ⟨j, hj, hji, hjk⟩ := ih ⟨pb, hpb⟩ i hi hk
      obtain ⟨j2, hj2, hj2j, hj2k⟩ := hstep _ _ ⟨pb, hpb, hrest⟩ hqc j hj hjk
      exact ⟨j2, hj2, lt_trans hj2j hji, hj2k⟩
  intro k htg
  have hfirstAux : ∀ b, Relation.TransGen (DependsOn byType) k b → ∃ c, DependsOn byType k c := by
    intro b htg2
    induction htg2 with
    | single hab => exact ⟨_, hab⟩
    | tail hab hbc ih => exact ih
  obtain ⟨c, hc⟩ := hfirstAux k htg
  obtain ⟨p, hp, -⟩ := hc
  have hkmem : ∃ r, r ∈ out ∧ keyOf r = k := by
    have hpp := hg.1 _ _ hp
    obtain ⟨r, hr, hrk⟩ := hall p hpp.1
    exact ⟨r, hr, by rw [hrk, hpp.2]⟩
  obtain ⟨r, hr, hrk⟩ := hkmem
  obtain ⟨i0, hi0, hi0get⟩ := List.mem_iff_getElem.mp hr
  have hnok : ∀ (i : Nat), ∀ (hi : i < out.length), keyOf (out.get ⟨i, hi⟩) ≠ k := by
    intro i
    induction i using Nat.strong_induction_on with
    | _ i ihmin =>
      intro hi hk2
      obtain ⟨j, hj, hji, hjk⟩ := hchain k k htg ⟨p, hp⟩ i hi hk2
      exact ihmin j hji hj hjk
  refine hnok i0 hi0 ?_
  simp only [List.get_eq_getElem]
  rw [hi0get, hrk]

/-- C2 (amended): a ParseResult passing the duplicate and completeness checks
whose depends-on relation has a cycle makes Analyze fail with a cycle error,
and the last key of the reported path also occurs at an earlier position of
the path (the repeated key closes the loop); the path need not begin with the
repeated key. -/
theorem analyze_cycle_error (parsed : ParseResult) (resolver : String → String)
    (byType : List (String × Provider))
    (hidx : buildIndex parsed.Providers = .ok byType)
    (hval : missingList parsed.Providers parsed.Invocations byType = [])
    (hcyc : ∃ k, Relation.TransGen (DependsOn byType) k k) :
    ∃ cp k, Analyze parsed resolver = .error (.circular cp) ∧
      cp.getLast? = some k ∧ k ∈ cp.dropLast := by
  have hg := goodIndex_of_buildIndex hidx
  cases ht : topoSort parsed.Providers parsed.Invocations byType with
  | ok out =>
    obtain ⟨k, htg⟩ := hcyc
    exact absurd htg (no_cycle_of_topoSort_ok _ _ _ _ hg ht k)
  | error e =>
    obtain ⟨cp, k, he, hlast, hmem2⟩ :=
      (topoSort_spec parsed.Providers parsed.Invocations byType hg).2 e ht
    refine ⟨cp, k, ?_, hlast, hmem2⟩
    subst he
    have hvd : validateDeps parsed.Providers parsed.Invocations byType = .ok () := by
      simp [validateDeps, hval]
    simp [Analyze, hidx, hvd, ht]

def cycA : Provider := ⟨"NewA", .func, ⟨"A", "", false⟩, [⟨"", ⟨"B", "", false⟩⟩], false, "", "a"⟩

def cycB : Provider := ⟨"NewB", .func, ⟨"B", "", false⟩, [⟨"", ⟨"C", "", false⟩⟩], false, "", "b"⟩

def cycC : Provider := ⟨"NewC", .func, ⟨"C", "", false⟩, [⟨"", ⟨"B", "", false⟩⟩], false, "", "c"⟩

def cexCycle : ParseResult := ⟨[cycA, cycB, cycC], [], "main", "out", ""⟩

def cexCycleIndex : List (String × Provider) := [("A", cycA), ("B", cycB), ("C", cycC)]

/-- The claim as frozen is false: on the tail-into-cycle input A→B→C→B the
reported path is A -> B -> C -> B, whose first and last keys differ. -/
theorem analyze_cycle_counterexample :
    Analyze cexCycle (fun s => s) = .error (.circular ["A", "B", "C", "B"]) ∧
    renderError (.circular ["A", "B", "C", "B"]) = "circular dependency: A -> B -> C -> B" ∧
    (["A", "B", "C", "B"] : List String).head? ≠ (["A", "B", "C", "B"] : List String).getLast? :=
  ⟨rfl, rfl, by decide⟩

theorem analyze_cycle_error_witness :
    ∃ cp k, Analyze cexCycle (fun s => s) = .error (.circular cp) ∧
      cp.getLast? = some k ∧ k ∈ cp.dropLast :=
  analyze_cycle_error cexCycle (fun s => s) cexCycleIndex rfl rfl
    ⟨"B", Relation.TransGen.tail
      (Relation.TransGen.single ⟨cycB, rfl, ⟨"", ⟨"C", "", false⟩⟩, by decide, rfl⟩)
      ⟨cycC, rfl, ⟨"", ⟨"B", "", false⟩⟩, by decide, rfl⟩⟩

/-! ### C5: uniqueness of generated variable names -/

/-- a is a proper prefix of b (on the underlying characters). -/
def StrProperPre (a b : String) : Prop :=
  a.data.length < b.data.length ∧ b.data.take a.data.length = a.data

instance (a b : String) : Decidable (StrProperPre a b) :=
  inferInstanceAs (Decidable (a.data.length < b.data.length ∧ b.data.take a.data.length = a.data))

/-- The name produced for one provider: base, or base followed by the decimal
occurrence count. -/
def namegen (b : String) (k : Nat) : String := if k = 0 then b else b ++ toDecimal k

theorem namegen_data (b : String) (k : Nat) :
    (namegen b k).data = b.data ++ (if k = 0 then [] else (toDecimal k).data) := by
  by_cases h : k = 0 <;> simp [namegen, h]

theorem take_eq_of_append_eq {α : Type} (a b x y : List α) (h : a ++ x = b ++ y)
    (hlen : a.length ≤ b.length) : b.take a.length = a := by
  calc b.take a.length = (b ++ y).take a.length := (List.take_append_of_le_length hlen).symm
    _ = (a ++ x).take a.length := by rw [h]
    _ = a := List.take_left a x

theorem namegen_inj_same (b : String) (k1 k2 : Nat) (h : namegen b k1 = namegen b k2) :
    k1 = k2 := by
  have hd := congrArg String.data h
  rw [namegen_data, namegen_data] at hd
  have hsuf := List.append_cancel_left hd
  by_cases h1 : k1 = 0 <;> by_cases h2 : k2 = 0
  · omega
  · rw [if_pos h1, if_neg h2] at hsuf
    exact absurd (toDecimal_ne_empty k2) (by simp [String.ext_iff, ← hsuf])
  · rw [if_neg h1, if_pos h2] at hsuf
    exact absurd (toDecimal_ne_empty k1) (by simp [String.ext_iff, hsuf])
  · rw [if_neg h1, if_neg h2] at hsuf
    exact toDecimal_injective (String.ext hsuf)

theorem namegen_base_rel (b1 b2 : String) (k1 k2 : Nat) (h : namegen b1 k1 = namegen b2 k2) :
    b1 = b2 ∨ StrProperPre b1 b2 ∨ StrProperPre b2 b1 := by
  have hd := congrArg String.data h
  rw [namegen_data, namegen_data] at hd
  rcases le_or_lt b1.data.length b2.data.length with hlen | hlen
  · rcases Nat.lt_or_ge b1.data.length b2.data.length with hlt | hge
    · right; left
      exact ⟨hlt, take_eq_of_append_eq _ _ _ _ hd hlen⟩
    · left
      have heq : b1.data.length = b2.data.length := le_antisymm hlen hge
      have := take_eq_of_append_eq _ _ _ _ hd hlen
      rw [heq, List.take_length] at this
      exact (String.ext this).symm
  · right; right
    exact ⟨hlen, take_eq_of_append_eq _ _ _ _ hd.symm (le_of_lt hlen)⟩

theorem resolveVarNames_nodup (l : List Provider)
    (hpre : ∀ p q, p ∈ l → q ∈ l → ¬ StrProperPre p.VarName q.VarName) :
    ((resolveVarNames l).map (fun p => p.VarName)).Nodup := by
  rw [List.nodup_iff_getElem?_ne_getElem?]
  intro i j hij hj hne
  have hjl : j < l.length := by
    simpa [resolveVarNames_length] using hj
  have hil : i < l.length := lt_trans hij hjl
  rw [List.getElem?_map, List.getElem?_map, resolveVarNames_disambiguation,
    resolveVarNames_disambiguation, List.getElem?_eq_getElem hil, List.getElem?_eq_getElem hjl]
    at hne
  simp only [Option.map, Option.some.injEq] at hne
  have hpim : l.get ⟨i, hil⟩ ∈ l := List.get_mem l i hil
  have hpjm : l.get ⟨j, hjl⟩ ∈ l := List.get_mem l j hjl
  simp only [List.get_eq_getElem] at hpim hpjm
  have hne2 : namegen (l.get ⟨i, hil⟩).VarName (priorCount l i (l.get ⟨i, hil⟩).VarName) =
      namegen (l.get ⟨j, hjl⟩).VarName (priorCount l j (l.get ⟨j, hjl⟩).VarName) := by
    simpa only [namegen, List.get_eq_getElem] using hne
  rcases namegen_base_rel _ _ _ _ hne2 with hbase | hp | hp
  · have hki : priorCount l i (l.get ⟨i, hil⟩).VarName <
        priorCount l j (l.get ⟨i, hil⟩).VarName := by
      have hstep : priorCount l (i + 1) (l.get ⟨i, hil⟩).VarName =
          priorCount l i (l.get ⟨i, hil⟩).VarName + 1 := by
        simp only [priorCount]
        rw [List.take_succ, List.getElem?_eq_getElem hil]
        simp only [Option.toList_some, List.filter_append, List.length_append, List.get_eq_getElem]
        simp [List.filter_cons]
      have hmono : priorCount l (i + 1) (l.get ⟨i, hil⟩).VarName ≤
          priorCount l j (l.get ⟨i, hil⟩).VarName := by
        have hsub : l.take (i + 1) = (l.take j).take (i + 1) := by
          rw [List.take_take]
          congr 1
          omega
        simp only [priorCount]
        rw [hsub]
        exact List.Sublist.length_le
          (List.Sublist.filter _ (List.take_sublist (i + 1) (l.take j)))
      omega
    rw [hbase] at hne2
    have := namegen_inj_same _ _ _ hne2
    rw [← hbase] at this
    omega
  · exact hpre _ _ hpim hpjm hp
  · exact hpre _ _ hpjm hpim hp

/-- C5 (amended): on a successful Analyze run the generated variable names are
pairwise distinct provided no base variable name is a proper prefix of
another; without that proviso the claim is false (see the counterexample:
bases cfg, cfg1, cfg collide on cfg1). -/
theorem analyze_varNames_nodup (parsed : ParseResult) (resolver : String → String) (res : Result)
    (h : Analyze parsed resolver = .ok res)
    (hpre : ∀ p q, p ∈ parsed.Providers → q ∈ parsed.Providers →
      ¬ StrProperPre p.VarName q.VarName) :
    (res.Providers.map (fun p => p.VarName)).Nodup := by
  obtain ⟨byType, ordered, hidx, hml, htopo, hprov, -, -⟩ :=
    analyze_ok_decomp parsed resolver res h
  have hg := goodIndex_of_buildIndex hidx
  obtain ⟨-, -, hmem, -⟩ :=
    (topoSort_spec parsed.Providers parsed.Invocations byType hg).1 ordered htopo
  rw [hprov]
  exact resolveVarNames_nodup ordered (fun p q hp hq => hpre p q (hmem p hp).1 (hmem q hq).1)

def varA : Provider := ⟨"NewA", .func, ⟨"A", "", false⟩, [], false, "", "cfg"⟩

def varB : Provider := ⟨"NewB", .func, ⟨"B", "", false⟩, [], false, "", "cfg1"⟩

def varC : Provider := ⟨"NewC", .func, ⟨"C", "", false⟩, [], false, "", "cfg"⟩

def cexVar : ParseResult := ⟨[varA, varB, varC], [], "main", "out", ""⟩

/-- The claim as frozen is false: with base names cfg, cfg1, cfg, Analyze
succeeds and produces the duplicate variable name cfg1 twice. -/
theorem analyze_varNames_counterexample :
    (Analyze cexVar (fun s => s)).map (fun r => r.Providers.map (fun p => p.VarName)) =
      .ok ["cfg", "cfg1", "cfg1"] ∧ ¬ (["cfg", "cfg1", "cfg1"] : List String).Nodup :=
  ⟨rfl, by decide⟩

theorem analyze_varNames_nodup_witness :
    (diamondRes.Providers.map (fun p => p.VarName)).Nodup :=
  analyze_varNames_nodup diamond (fun s => s) diamondRes rfl
    (by intro p q hp hq; fin_cases hp <;> fin_cases hq <;> decide)

/-! ### C7: import alias assignment -/

/-- The number of paths before index i whose resolved short name is base. -/
def priorCountStr (l : List String) (i : Nat) (resolver : String → String) (base : String) : Nat :=
  ((l.take i).filter fun q => resolver q = base).length

theorem priorCountStr_cons_succ (p : String) (rest : List String) (i : Nat)
    (resolver : String → String) (base : String) :
    priorCountStr (p :: rest) (i + 1) resolver base =
      (if resolver p = base then 1 else 0) + priorCountStr rest i resolver base := by
  simp only [priorCountStr, List.take_succ_cons, List.filter_cons]
  by_cases h : resolver p = base
  · simp [h, Nat.add_comm]
  · simp [h]

theorem resolveAliasesGo_getElem : ∀ (l : List String) (resolver : String → String)
    (baseCount : List (String × Nat)) (i : Nat),
    (resolveAliasesGo resolver baseCount l)[i]? =
      (l[i]?).map fun path =>
        (path, (fun c => if c = 0 then "" else resolver path ++ toDecimal c)
          ((alookup (resolver path) baseCount).getD 0 +
            priorCountStr l i resolver (resolver path))) := by
  intro l
  induction l with
  | nil => intro resolver baseCount i; simp [resolveAliasesGo]
  | cons p rest ih =>
    intro resolver baseCount i
    have hunf : resolveAliasesGo resolver baseCount (p :: rest) =
        (p, if (alookup (resolver p) baseCount).getD 0 = 0 then ""
            else resolver p ++ toDecimal ((alookup (resolver p) baseCount).getD 0)) ::
        resolveAliasesGo resolver ((resolver p, (alookup (resolver p) baseCount).getD 0 + 1) :: baseCount) rest := rfl
    cases i with
    | zero =>
      rw [hunf]
      simp [priorCountStr]
    | succ i =>
      rw [hunf]
      simp only [List.getElem?_cons_succ]
      rw [ih resolver ((resolver p, (alookup (resolver p) baseCount).getD 0 + 1) :: baseCount) i]
      cases hrest : rest[i]? with
      | none => simp
      | some q =>
        simp only [Option.map]
        have hcnt : (alookup (resolver q)
              ((resolver p, (alookup (resolver p) baseCount).getD 0 + 1) :: baseCount)).getD 0 +
              priorCountStr rest i resolver (resolver q) =
            (alookup (resolver q) baseCount).getD 0 +
              priorCountStr (p :: rest) (i + 1) resolver (resolver q) := by
          rw [priorCountStr_cons_succ, alookup_cons]
          by_cases hb : resolver q = resolver p
          · rw [if_pos hb, if_pos hb.symm, hb]
            simp only [Option.getD_some]
            omega
          · rw [if_neg hb, if_neg (fun h => hb h.symm)]
            omega
        rw [hcnt]

theorem aliasgen_ne (b : String) (k1 k2 : Nat) (h : k1 < k2) :
    (if k1 = 0 then "" else b ++ toDecimal k1) ≠ (if k2 = 0 then "" else b ++ toDecimal k2) := by
  have hk2 : ¬ k2 = 0 := by omega
  rw [if_neg hk2]
  have htl : 0 < (toDecimal k2).data.length :=
    List.length_pos.mpr (toDecimalAux_ne_nil (k2 + 1) k2 (by omega))
  by_cases h1 : k1 = 0
  · rw [if_pos h1]
    intro he
    have hd : ([] : List Char) = b.data ++ (toDecimal k2).data := congrArg String.data he
    have hlen := congrArg List.length hd
    simp only [List.length_nil, List.length_append] at hlen
    omega
  · rw [if_neg h1]
    intro he
    have hd : b.data ++ (toDecimal k1).data = b.data ++ (toDecimal k2).data :=
      congrArg String.data he
    have := List.append_cancel_left hd
    exact absurd (toDecimal_injective (String.ext this)) (by omega)

/-- C7 (amended): alias assignment processes the path set in lexicographically
sorted order; the alias of the i-th sorted path is empty when no earlier
sorted path shares its resolved short name and otherwise the short name
suffixed with the count of earlier sharers; the result is independent of the
order in which the caller supplies the set; and aliases are unique within
each group of paths sharing a resolved short name (the empty alias recurs
once per group, so aliases are not globally unique). -/
theorem resolveImportAliases_spec (paths : List String) (resolver : String → String) :
    (∀ i : Nat,
      (resolveImportAliases paths resolver)[i]? =
        ((List.insertionSort strLe paths)[i]?).map (fun path =>
          (path,
            if priorCountStr (List.insertionSort strLe paths) i resolver (resolver path) = 0
            then ""
            else resolver path ++
              toDecimal (priorCountStr (List.insertionSort strLe paths) i resolver (resolver path))))) ∧
    (∀ paths2, List.Perm paths paths2 →
      resolveImportAliases paths resolver = resolveImportAliases paths2 resolver) ∧
    (∀ (i j : Nat) (hi : i < (List.insertionSort strLe paths).length)
        (hj : j < (List.insertionSort strLe paths).length), i ≠ j →
      resolver ((List.insertionSort strLe paths).get ⟨i, hi⟩) =
        resolver ((List.insertionSort strLe paths).get ⟨j, hj⟩) →
      (resolveImportAliases paths resolver)[i]?.map Prod.snd ≠
        (resolveImportAliases paths resolver)[j]?.map Prod.snd) := by
  have hform : ∀ i : Nat,
      (resolveImportAliases paths resolver)[i]? =
        ((List.insertionSort strLe paths)[i]?).map (fun path =>
          (path,
            if priorCountStr (List.insertionSort strLe paths) i resolver (resolver path) = 0
            then ""
            else resolver path ++
              toDecimal (priorCountStr (List.insertionSort strLe paths) i resolver (resolver path)))) := by
    intro i
    rw [resolveImportAliases, resolveAliasesGo_getElem]
    cases (List.insertionSort strLe paths)[i]? with
    | none => rfl
    | some path =>
      simp only [Option.map, alookup, Option.getD_none, Nat.zero_add]
  refine ⟨hform, ?_, ?_⟩
  · intro paths2 hperm
    have hsorteq : List.insertionSort strLe paths = List.insertionSort strLe paths2 := by
      refine List.eq_of_perm_of_sorted ?_ (List.sorted_insertionSort strLe paths)
        (List.sorted_insertionSort strLe paths2)
      exact (List.perm_insertionSort strLe paths).trans
        (hperm.trans (List.perm_insertionSort strLe paths2).symm)
    rw [resolveImportAliases, resolveImportAliases, hsorteq]
  · have haux : ∀ (i j : Nat) (hi : i < (List.insertionSort strLe paths).length)
        (hj : j < (List.insertionSort strLe paths).length), i < j →
        resolver ((List.insertionSort strLe paths).get ⟨i, hi⟩) =
          resolver ((List.insertionSort strLe paths).get ⟨j, hj⟩) →
        (resolveImportAliases paths resolver)[i]?.map Prod.snd ≠
          (resolveImportAliases paths resolver)[j]?.map Prod.snd := by
      intro i j hi hj hij hbase hne
      rw [hform i, hform j, List.getElem?_eq_getElem hi, List.getElem?_eq_getElem hj] at hne
      simp only [Option.map, Option.some.injEq, List.get_eq_getElem] at hne hbase
      have hki : priorCountStr (List.insertionSort strLe paths) i resolver
            (resolver (List.insertionSort strLe paths)[i]) <
          priorCountStr (List.insertionSort strLe paths) j resolver
            (resolver (List.insertionSort strLe paths)[i]) := by
        have hstep : priorCountStr (List.insertionSort strLe paths) (i + 1) resolver
              (resolver (List.insertionSort strLe paths)[i]) =
            priorCountStr (List.insertionSort strLe paths) i resolver
              (resolver (List.insertionSort strLe paths)[i]) + 1 := by
          simp only [priorCountStr]
          rw [List.take_succ, List.getElem?_eq_getElem hi]
          simp only [Option.toList_some, List.filter_append, List.length_append]
          simp [List.filter_cons]
        have hmono : priorCountStr (List.insertionSort strLe paths) (i + 1) resolver
              (resolver (List.insertionSort strLe paths)[i]) ≤
            priorCountStr (List.insertionSort strLe paths) j resolver
              (resolver (List.insertionSort strLe paths)[i]) := by
          have hsub : (List.insertionSort strLe paths).take (i + 1) =
              ((List.insertionSort strLe paths).take j).take (i + 1) := by
            rw [List.take_take]
            congr 1
            omega
          simp only [priorCountStr]
          rw [hsub]
          exact List.Sublist.length_le
            (List.Sublist.filter _ (List.take_sublist (i + 1) _))
        omega
      rw [← hbase] at hne
      exact aliasgen_ne _ _ _ hki hne
    intro i j hi hj hij hbase
    rcases lt_trichotomy i j with h | h | h
    · exact haux i j hi hj h hbase
    · exact absurd h hij
    · exact fun hne => haux j i hj hi h hbase.symm hne.symm

/-- The claim as frozen is false: two paths with distinct short names both
receive the empty alias, so aliases are not unique across the whole set. -/
theorem resolveImportAliases_counterexample :
    (resolveImportAliases ["a", "b"] (fun s => s)).map Prod.snd = ["", ""] ∧
    ¬ ((["", ""] : List String)).Nodup :=
  ⟨rfl, by decide⟩

def cexAliasResolver : String → String := fun _ => "http"

theorem resolveImportAliases_spec_witness :
    (resolveImportAliases ["b/x", "a/x"] cexAliasResolver)[0]?.map Prod.snd ≠
      (resolveImportAliases ["b/x", "a/x"] cexAliasResolver)[1]?.map Prod.snd :=
  (resolveImportAliases_spec ["b/x", "a/x"] cexAliasResolver).2.2 0 1 (by decide) (by decide)
    (by decide) (by decide)

/-! ### C9: the import key set -/

theorem mem_addImportPath (out : String) (acc : List String) (p x : String) :
    x ∈ addImportPath out acc p ↔ x ∈ acc ∨ (x = p ∧ p ≠ "" ∧ p ≠ out) := by
  unfold addImportPath
  by_cases h1 : p = "" ∨ p = out
  · rw [if_pos h1]
    constructor
    · exact Or.inl
    · rintro (hx | ⟨hx, hne, hno⟩)
      · exact hx
      · rcases h1 with h1 | h1
        · exact absurd h1 hne
        · exact absurd h1 hno
  · rw [if_neg h1]
    push_neg at h1
    by_cases h2 : p ∈ acc
    · rw [if_pos h2]
      constructor
      · exact Or.inl
      · rintro (hx | ⟨hx, -, -⟩)
        · exact hx
        · rw [hx]; exact h2
    · rw [if_neg h2]
      simp only [List.mem_append, List.mem_singleton]
      constructor
      · rintro (hx | hx)
        · exact Or.inl hx
        · exact Or.inr ⟨hx, h1.1, h1.2⟩
      · rintro (hx | ⟨hx, -, -⟩)
        · exact Or.inl hx
        · exact Or.inr hx

theorem mem_foldl_add {α : Type} (out : String) (f : α → String) (l : List α) :
    ∀ (acc : List String) (x : String),
      x ∈ l.foldl (fun a b => addImportPath out a (f b)) acc ↔
        x ∈ acc ∨ ∃ b, b ∈ l ∧ x = f b ∧ x ≠ "" ∧ x ≠ out := by
  induction l with
  | nil => intro acc x; simp
  | cons b rest ih =>
    intro acc x
    simp only [List.foldl_cons]
    rw [ih, mem_addImportPath]
    constructor
    · rintro ((hx | ⟨hx, hne, hno⟩) | ⟨b2, hb2, hx, hne, hno⟩)
      · exact Or.inl hx
      · exact Or.inr ⟨b, List.mem_cons_self _ _, hx, by rw [hx]; exact hne, by rw [hx]; exact hno⟩
      · exact Or.inr ⟨b2, List.mem_cons_of_mem _ hb2, hx, hne, hno⟩
    · rintro (hx | ⟨b2, hb2, hx, hne, hno⟩)
      · exact Or.inl (Or.inl hx)
      · rcases List.mem_cons.mp hb2 with hb3 | hb3
        · subst hb3
          exact Or.inl (Or.inr ⟨hx, by rw [← hx]; exact hne, by rw [← hx]; exact hno⟩)
        · exact Or.inr ⟨b2, hb3, hx, hne, hno⟩

theorem mem_providerPaths (out : String) (acc : List String) (p : Provider) (x : String) :
    x ∈ providerPaths out acc p ↔ x ∈ acc ∨
      ((x = p.ImportPath ∨ ∃ d, d ∈ p.Dependencies ∧ x = d.type.ImportPath) ∧
        x ≠ "" ∧ x ≠ out) := by
  unfold providerPaths
  have hfold := mem_foldl_add out (fun dep => dep.type.ImportPath) p.Dependencies
    (addImportPath out acc p.ImportPath) x
  rw [hfold, mem_addImportPath]
  constructor
  · rintro ((hx | ⟨hx, hne, hno⟩) | ⟨d, hd, hx, hne, hno⟩)
    · exact Or.inl hx
    · exact Or.inr ⟨Or.inl hx, by rw [hx]; exact hne, by rw [hx]; exact hno⟩
    · exact Or.inr ⟨Or.inr ⟨d, hd, hx⟩, hne, hno⟩
  · rintro (hx | ⟨hx | ⟨d, hd, hx⟩, hne, hno⟩)
    · exact Or.inl (Or.inl hx)
    · exact Or.inl (Or.inr ⟨hx, by rw [← hx]; exact hne, by rw [← hx]; exact hno⟩)
    · exact Or.inr ⟨d, hd, hx, hne, hno⟩

theorem mem_invocationPaths (out : String) (acc : List String) (inv : Invocation) (x : String) :
    x ∈ invocationPaths out acc inv ↔ x ∈ acc ∨
      ((x = inv.ImportPath ∨ ∃ t, t ∈ inv.Dependencies ∧ x = t.ImportPath) ∧
        x ≠ "" ∧ x ≠ out) := by
  unfold invocationPaths
  have hfold := mem_foldl_add out (fun t => t.ImportPath) inv.Dependencies
    (addImportPath out acc inv.ImportPath) x
  rw [hfold, mem_addImportPath]
  constructor
  · rintro ((hx | ⟨hx, hne, hno⟩) | ⟨t, ht, hx, hne, hno⟩)
    · exact Or.inl hx
    · exact Or.inr ⟨Or.inl hx, by rw [hx]; exact hne, by rw [hx]; exact hno⟩
    · exact Or.inr ⟨Or.inr ⟨t, ht, hx⟩, hne, hno⟩
  · rintro (hx | ⟨hx | ⟨t, ht, hx⟩, hne, hno⟩)
    · exact Or.inl (Or.inl hx)
    · exact Or.inl (Or.inr ⟨hx, by rw [← hx]; exact hne, by rw [← hx]; exact hno⟩)
    · exact Or.inr ⟨t, ht, hx, hne, hno⟩

theorem mem_foldl_providerPaths (out : String) (l : List Provider) :
    ∀ (acc : List String) (x : String),
      x ∈ l.foldl (providerPaths out) acc ↔ x ∈ acc ∨
        ∃ p, p ∈ l ∧ (x = p.ImportPath ∨ ∃ d, d ∈ p.Dependencies ∧ x = d.type.ImportPath) ∧
          x ≠ "" ∧ x ≠ out := by
  induction l with
  | nil => intro acc x; simp
  | cons p rest ih =>
    intro acc x
    simp only [List.foldl_cons]
    rw [ih, mem_providerPaths]
    constructor
    · rintro ((hx | ⟨hocc, hne, hno⟩) | ⟨p2, hp2, hocc, hne, hno⟩)
      · exact Or.inl hx
      · exact Or.inr ⟨p, List.mem_cons_self _ _, hocc, hne, hno⟩
      · exact Or.inr ⟨p2, List.mem_cons_of_mem _ hp2, hocc, hne, hno⟩
    · rintro (hx | ⟨p2, hp2, hocc, hne, hno⟩)
      · exact Or.inl (Or.inl hx)
      · rcases List.mem_cons.mp hp2 with hp3 | hp3
        · subst hp3
          exact Or.inl (Or.inr ⟨hocc, hne, hno⟩)
        · exact Or.inr ⟨p2, hp3, hocc, hne, hno⟩

theorem mem_foldl_invocationPaths (out : String) (l : List Invocation) :
    ∀ (acc : List String) (x : String),
      x ∈ l.foldl (invocationPaths out) acc ↔ x ∈ acc ∨
        ∃ inv, inv ∈ l ∧ (x = inv.ImportPath ∨ ∃ t, t ∈ inv.Dependencies ∧ x = t.ImportPath) ∧
          x ≠ "" ∧ x ≠ out := by
  induction l with
  | nil => intro acc x; simp
  | cons inv rest ih =>
    intro acc x
    simp only [List.foldl_cons]
    rw [ih, mem_invocationPaths]
    constructor
    · rintro ((hx | ⟨hocc, hne, hno⟩) | ⟨i2, hi2, hocc, hne, hno⟩)
      · exact Or.inl hx
      · exact Or.inr ⟨inv, List.mem_cons_self _ _, hocc, hne, hno⟩
      · exact Or.inr ⟨i2, List.mem_cons_of_mem _ hi2, hocc, hne, hno⟩
    · rintro (hx | ⟨i2, hi2, hocc, hne, hno⟩)
      · exact Or.inl (Or.inl hx)
      · rcases List.mem_cons.mp hi2 with hi3 | hi3
        · subst hi3
          exact Or.inl (Or.inr ⟨hocc, hne, hno⟩)
        · exact Or.inr ⟨i2, hi3, hocc, hne, hno⟩

/-- A path occurs among the namespaces of providers (own or dependency) or
invocations (own or required TypeRef). -/
def OccursIn (providers : List Provider) (invocations : List Invocation) (path : String) : Prop :=
  (∃ p, p ∈ providers ∧
    (path = p.ImportPath ∨ ∃ d, d ∈ p.Dependencies ∧ path = d.type.ImportPath)) ∨
  (∃ inv, inv ∈ invocations ∧
    (path = inv.ImportPath ∨ ∃ t, t ∈ inv.Dependencies ∧ path = t.ImportPath))

theorem mem_collectPaths (providers : List Provider) (invocations : List Invocation)
    (out : String) (path : String) :
    path ∈ collectPaths providers invocations out ↔
      OccursIn providers invocations path ∧ path ≠ "" ∧ path ≠ out := by
  unfold collectPaths OccursIn
  rw [mem_foldl_invocationPaths, mem_foldl_providerPaths]
  constructor
  · rintro ((hx | ⟨p, hp, hocc, hne, hno⟩) | ⟨inv, hinv, hocc, hne, hno⟩)
    · simp at hx
    · exact ⟨Or.inl ⟨p, hp, hocc⟩, hne, hno⟩
    · exact ⟨Or.inr ⟨inv, hinv, hocc⟩, hne, hno⟩
  · rintro ⟨hocc | hocc, hne, hno⟩
    · obtain ⟨p, hp, hocc⟩ := hocc
      exact Or.inl (Or.inr ⟨p, hp, hocc, hne, hno⟩)
    · obtain ⟨inv, hinv, hocc⟩ := hocc
      exact Or.inr ⟨inv, hinv, hocc, hne, hno⟩

theorem resolveAliasesGo_fst : ∀ (l : List String) (resolver : String → String)
    (baseCount : List (String × Nat)),
    (resolveAliasesGo resolver baseCount l).map Prod.fst = l := by
  intro l
  induction l with
  | nil => intro resolver baseCount; rfl
  | cons p rest ih =>
    intro resolver baseCount
    simp [resolveAliasesGo, ih]

theorem imports_key_mem (paths : List String) (resolver : String → String) (path : String) :
    (∃ al, (path, al) ∈ resolveImportAliases paths resolver) ↔ path ∈ paths := by
  have hfst : (resolveImportAliases paths resolver).map Prod.fst =
      List.insertionSort strLe paths := resolveAliasesGo_fst _ resolver []
  constructor
  · rintro ⟨al, hmem⟩
    have hm : path ∈ (resolveImportAliases paths resolver).map Prod.fst :=
      List.mem_map_of_mem Prod.fst hmem
    rw [hfst] at hm
    exact (List.perm_insertionSort strLe paths).mem_iff.mp hm
  · intro hp
    have hm : path ∈ (resolveImportAliases paths resolver).map Prod.fst := by
      rw [hfst]
      exact (List.perm_insertionSort strLe paths).mem_iff.mpr hp
    obtain ⟨pair, hmem, ha⟩ := List.mem_map.mp hm
    refine ⟨pair.2, ?_⟩
    have : pair = (path, pair.2) := by
      rw [← ha]
    rwa [this] at hmem

theorem occurs_resolveVarNames (l : List Provider) (Q : String → List Dependency → Prop) :
    (∃ p, p ∈ resolveVarNames l ∧ Q p.ImportPath p.Dependencies) ↔
      (∃ p, p ∈ l ∧ Q p.ImportPath p.Dependencies) := by
  constructor
  · rintro ⟨p, hp, hq⟩
    obtain ⟨i, hi, hget⟩ := List.mem_iff_getElem.mp hp
    have hil : i < l.length := by rwa [resolveVarNames_length] at hi
    have hf := resolveVarNames_getElem_fields l i
    rw [List.getElem?_eq_getElem hi, List.getElem?_eq_getElem hil] at hf
    simp only [Option.map, Option.some.injEq, Prod.mk.injEq] at hf
    obtain ⟨-, -, -, hdep, -, himp⟩ := hf
    refine ⟨l.get ⟨i, hil⟩, List.get_mem l i hil, ?_⟩
    simp only [List.get_eq_getElem]
    rw [← himp, ← hdep, hget]
    exact hq
  · rintro ⟨p, hp, hq⟩
    obtain ⟨i, hil, hget⟩ := List.mem_iff_getElem.mp hp
    have hi : i < (resolveVarNames l).length := by rwa [resolveVarNames_length]
    have hf := resolveVarNames_getElem_fields l i
    rw [List.getElem?_eq_getElem hi, List.getElem?_eq_getElem hil] at hf
    simp only [Option.map, Option.some.injEq, Prod.mk.injEq] at hf
    obtain ⟨-, -, -, hdep, -, himp⟩ := hf
    refine ⟨(resolveVarNames l).get ⟨i, hi⟩, List.get_mem _ i hi, ?_⟩
    simp only [List.get_eq_getElem]
    rw [himp, hdep, hget]
    exact hq

/-- C9: a path is a key of the Imports map iff it occurs as a provider's own
namespace, a provider dependency's namespace, an invocation's own namespace,
or an invocation requirement's namespace, and is neither empty nor equal to
the output namespace path. -/
theorem analyze_imports_keys (parsed : ParseResult) (resolver : String → String) (res : Result)
    (h : Analyze parsed resolver = .ok res) :
    ∀ path, (∃ al, (path, al) ∈ res.Imports) ↔
      (OccursIn parsed.Providers parsed.Invocations path ∧ path ≠ "" ∧
        path ≠ parsed.OutputImportPath) := by
  obtain ⟨byType, ordered, hidx, hml, htopo, hprov, hinvs, himp⟩ :=
    analyze_ok_decomp parsed resolver res h
  have hperm : ordered.Perm parsed.Providers := topoSort_permutation parsed byType ordered hidx htopo
  intro path
  rw [himp]
  unfold collectImports
  rw [imports_key_mem, mem_collectPaths]
  constructor
  · rintro ⟨hocc | hocc, hne, hno⟩
    · refine ⟨Or.inl ?_, hne, hno⟩
      have := (occurs_resolveVarNames ordered
        (fun imp deps => path = imp ∨ ∃ d, d ∈ deps ∧ path = d.type.ImportPath)).mp hocc
      obtain ⟨p, hp, hq⟩ := this
      exact ⟨p, hperm.mem_iff.mp hp, hq⟩
    · exact ⟨Or.inr hocc, hne, hno⟩
  · rintro ⟨hocc | hocc, hne, hno⟩
    · refine ⟨Or.inl ?_, hne, hno⟩
      refine (occurs_resolveVarNames ordered
        (fun imp deps => path = imp ∨ ∃ d, d ∈ deps ∧ path = d.type.ImportPath)).mpr ?_
      obtain ⟨p, hp, hq⟩ := hocc
      exact ⟨p, hperm.mem_iff.mpr hp, hq⟩
    · exact ⟨Or.inr hocc, hne, hno⟩

def impProvT : Provider := ⟨"NewT", .func, ⟨"T", "pkg/b", true⟩, [], false, "pkg/b", "t"⟩

def impProvS : Provider :=
  ⟨"NewS", .func, ⟨"S", "pkg/a", false⟩, [⟨"", ⟨"T", "pkg/b", true⟩⟩], false, "pkg/a", "s"⟩

def impInv : Invocation := ⟨"Run", [⟨"S", "pkg/a", false⟩], false, "pkg/c"⟩

def cexImp : ParseResult := ⟨[impProvS, impProvT], [impInv], "main", "out/pkg", ""⟩

def cexImpRes : Result :=
  ⟨[impProvT, impProvS], [impInv], "main", "out/pkg", [("pkg/a", ""), ("pkg/b", ""), ("pkg/c", "")]⟩

theorem analyze_imports_keys_witness :
    ∃ al, ("pkg/b", al) ∈ cexImpRes.Imports :=
  (analyze_imports_keys cexImp (fun s => s) cexImpRes rfl "pkg/b").mpr
    ⟨Or.inl ⟨impProvS, by decide, Or.inr ⟨⟨"", ⟨"T", "pkg/b", true⟩⟩, by decide, rfl⟩⟩,
      by decide, by decide⟩

/-! ### C10: the package-name resolver fallback (internal/resolver/resolver.go)

`fallbackName` uses Go's `path/filepath.Base`, `filepath.Dir` (which calls
`Clean`), `strings.LastIndex` and `strings.CutSuffix`; those library
functions are embedded below following their Go (Unix) implementations, on
character lists (equivalent to Go's byte strings on valid UTF-8, since the
searched patterns are ASCII). -/

/-- Strip trailing '/' characters (the first loop of filepath.Base). -/
def dropTrailingSlashes (cs : List Char) : List Char :=
  (cs.reverse.dropWhile (fun c => c == '/')).reverse

/-- Everything after the last '/' of a path that has no trailing slash. -/
def afterLastSlash (cs : List Char) : List Char :=
  (cs.reverse.takeWhile (fun c => c != '/')).reverse

/-- Everything up to and including the last '/'. -/
def uptoLastSlash (cs : List Char) : List Char :=
  (cs.reverse.dropWhile (fun c => c != '/')).reverse

/-- filepath.Base (Unix): empty gives ".", all-slashes gives "/", otherwise
the last path element after stripping trailing slashes. -/
def goFilepathBase (path : String) : String :=
  if path = "" then "."
  else
    let b := afterLastSlash (dropTrailingSlashes path.data)
    if b = [] then "/" else String.mk b

/-- The inner while loop of Clean's ".." backtracking: decrement w past the
previous element. -/
def backW (out : List Char) (dotdot : Nat) : Nat → Nat
  | 0 => 0
  | w + 1 => if dotdot < w + 1 ∧ ¬ out[w + 1]? = some '/' then backW out dotdot w else w + 1

/-- Truncate the output buffer past the previous element (Clean's ".."
case when out.w > dotdot). -/
def backtrack (out : List Char) (dotdot : Nat) : List Char :=
  out.take (backW out dotdot (out.length - 1))

/-- The main loop of path Clean (Go path/filepath Clean, Unix separators),
fuel-indexed: each iteration consumes at least one input character, so any
fuel above the input length is enough. -/
def cleanLoop (rooted : Bool) : Nat → List Char → List Char → Nat → List Char
  | 0, _, out, _ => out
  | fuel + 1, cs, out, dotdot =>
    match cs with
    | [] => out
    | c :: rest =>
      if c = '/' then cleanLoop rooted fuel rest out dotdot
      else if c = '.' ∧ (rest = [] ∨ rest.head? = some '/') then
        cleanLoop rooted fuel rest out dotdot
      else if c = '.' ∧ rest.head? = some '.' ∧ (rest.tail = [] ∨ rest.tail.head? = some '/') then
        (if dotdot < out.length then cleanLoop rooted fuel rest.tail (backtrack out dotdot) dotdot
         else if rooted = false then
           cleanLoop rooted fuel rest.tail
             ((if 0 < out.length then out ++ ['/'] else out) ++ ['.', '.'])
             ((if 0 < out.length then out ++ ['/'] else out) ++ ['.', '.']).length
         else cleanLoop rooted fuel rest.tail out dotdot)
      else
        cleanLoop rooted fuel ((c :: rest).dropWhile (fun ch => ch != '/'))
          ((if (rooted = true ∧ out.length ≠ 1) ∨ (rooted = false ∧ out.length ≠ 0)
            then out ++ ['/'] else out) ++ (c :: rest).takeWhile (fun ch => ch != '/'))
          dotdot

/-- filepath.Clean (Unix). -/
def goClean (path : String) : String :=
  if path = "" then "."
  else
    let out :=
      if path.data.head? = some '/' then
        cleanLoop true (path.data.length + 1) path.data.tail ['/'] 1
      else
        cleanLoop false (path.data.length + 1) path.data [] 0
    if out = [] then "." else String.mk out

/-- filepath.Dir (Unix): everything up to the final separator, Cleaned. -/
def goFilepathDir (path : String) : String :=
  goClean (String.mk (uptoLastSlash path.data))

/-- resolver.go isVersionSuffix: a 'v' followed by one or more digits. -/
def isVersionSuffix (s : String) : Bool :=
  match s.data with
  | 'v' :: c :: rest => (c :: rest).all fun d => decide ('0' ≤ d ∧ d ≤ '9')
  | _ => false

/-- The substring following the last occurrence of ".": the model of
`s[strings.LastIndex(s, ".v")+1:]` (none when ".v" does not occur). -/
def lastDotV : List Char → Option (List Char)
  | [] => none
  | c :: cs =>
    match lastDotV cs with
    | some r => some r
    | none =>
      match c, cs with
      | '.', 'v' :: rest => some ('v' :: rest)
      | _, _ => none

/-- resolver.go versionSuffix: the trailing ".vN" of s, or "". -/
def versionSuffix (s : String) : String :=
  match lastDotV s.data with
  | none => ""
  | some suf => if isVersionSuffix (String.mk suf) then String.mk ('.' :: suf) else ""

/-- strings.CutSuffix. -/
def goCutSuffix (s suf : String) : String × Bool :=
  if suf.data.isSuffixOf s.data then
    (String.mk (s.data.take (s.data.length - suf.data.length)), true)
  else (s, false)

/-- resolver.go fallbackName. -/
def fallbackName (importPath : String) : String :=
  let base := goFilepathBase importPath
  if isVersionSuffix base then goFilepathBase (goFilepathDir importPath)
  else
    let cut := goCutSuffix base (versionSuffix base)
    if cut.2 then cut.1 else base

/-- A well-formed import path segment: nonempty, slash-free, and not a
relative marker. -/
def ValidSeg (s : String) : Prop := s.data ≠ [] ∧ '/' ∉ s.data ∧ s ≠ "." ∧ s ≠ ".."

instance (s : String) : Decidable (ValidSeg s) :=
  inferInstanceAs (Decidable (s.data ≠ [] ∧ '/' ∉ s.data ∧ s ≠ "." ∧ s ≠ ".."))

/-- The characters of the '/'-joined path of the segments. -/
def joinSegs : List String → List Char
  | [] => []
  | [s] => s.data
  | s :: rest => s.data ++ '/' :: joinSegs rest

/-- The characters of the segments joined with a trailing '/' after each. -/
def trailJoin : List String → List Char
  | [] => []
  | s :: rest => s.data ++ '/' :: trailJoin rest

theorem joinSegs_cons (s : String) (rest : List String) (h : rest ≠ []) :
    joinSegs (s :: rest) = s.data ++ '/' :: joinSegs rest := by
  cases rest with
  | nil => exact absurd rfl h
  | cons r rs => rfl

theorem trailJoin_eq (segs : List String) (h : segs ≠ []) :
    trailJoin segs = joinSegs segs ++ ['/'] := by
  induction segs with
  | nil => exact absurd rfl h
  | cons s rest ih =>
    cases rest with
    | nil => rfl
    | cons r rs =>
      rw [show trailJoin (s :: r :: rs) = s.data ++ '/' :: trailJoin (r :: rs) from rfl,
        ih (by simp), joinSegs_cons s (r :: rs) (by simp)]
      simp

theorem takeWhile_all_noSlash (X : List Char) (hX : ∀ c, c ∈ X → c ≠ '/') :
    (X.takeWhile fun ch => ch != '/') = X := by
  induction X with
  | nil => rfl
  | cons c cs ih =>
    have hc : c ≠ '/' := hX c (List.mem_cons_self _ _)
    simp only [List.takeWhile_cons, bne_iff_ne]
    rw [if_pos hc, ih fun c2 hc2 => hX c2 (List.mem_cons_of_mem _ hc2)]

theorem takeWhile_noSlash_append (X Z : List Char) (hX : ∀ c, c ∈ X → c ≠ '/') :
    ((X ++ '/' :: Z).takeWhile fun ch => ch != '/') = X := by
  induction X with
  | nil => simp [List.takeWhile_cons]
  | cons c cs ih =>
    have hc : c ≠ '/' := hX c (List.mem_cons_self _ _)
    simp only [List.cons_append, List.takeWhile_cons, bne_iff_ne]
    rw [if_pos hc, ih fun c2 hc2 => hX c2 (List.mem_cons_of_mem _ hc2)]

theorem dropWhile_noSlash_append (X Z : List Char) (hX : ∀ c, c ∈ X → c ≠ '/') :
    ((X ++ '/' :: Z).dropWhile fun ch => ch != '/') = '/' :: Z := by
  induction X with
  | nil => simp [List.dropWhile_cons]
  | cons c cs ih =>
    have hc : c ≠ '/' := hX c (List.mem_cons_self _ _)
    simp only [List.cons_append, List.dropWhile_cons, bne_iff_ne]
    rw [if_pos hc]
    exact ih fun c2 hc2 => hX c2 (List.mem_cons_of_mem _ hc2)

theorem dropWhile_all_noSlash (X : List Char) (hX : ∀ c, c ∈ X → c ≠ '/') :
    (X.dropWhile fun ch => ch != '/') = [] := by
  induction X with
  | nil => rfl
  | cons c cs ih =>
    have hc : c ≠ '/' := hX c (List.mem_cons_self _ _)
    simp only [List.dropWhile_cons, bne_iff_ne]
    rw [if_pos hc]
    exact ih fun c2 hc2 => hX c2 (List.mem_cons_of_mem _ hc2)

theorem string_mk_data (s : String) : String.mk s.data = s := by
  rcases s with ⟨d⟩
  rfl

theorem string_mk_ne_empty (X : List Char) (h : X ≠ []) : String.mk X ≠ "" := by
  intro he
  exact h (congrArg String.data he)

theorem getLastD_snoc (l : List String) (a : String) : ∀ d, (l ++ [a]).getLastD d = a := by
  induction l with
  | nil => intro d; rfl
  | cons x xs ih =>
    intro d
    rw [List.cons_append, List.getLastD_cons]
    exact ih x

theorem joinSegs_snoc (init : List String) (last : String) (h : init ≠ []) :
    joinSegs (init ++ [last]) = joinSegs init ++ '/' :: last.data := by
  induction init with
  | nil => exact absurd rfl h
  | cons s rest ih =>
    cases rest with
    | nil => rfl
    | cons r rs =>
      rw [List.cons_append, joinSegs_cons s ((r :: rs) ++ [last]) (by simp),
        ih (by simp), joinSegs_cons s (r :: rs) (by simp)]
      simp

theorem dropTrailingSlashes_eq (Y X : List Char) (hXne : X ≠ [])
    (hX : ∀ c, c ∈ X → c ≠ '/') :
    dropTrailingSlashes (Y ++ X) = Y ++ X := by
  unfold dropTrailingSlashes
  obtain ⟨c, t, hct⟩ : ∃ c t, X.reverse = c :: t := by
    cases hX2 : X.reverse with
    | nil => exact absurd (List.reverse_eq_nil_iff.mp hX2) hXne
    | cons a b => exact ⟨a, b, rfl⟩
  have hc : c ≠ '/' := hX c (by rw [← List.mem_reverse, hct]; exact List.mem_cons_self _ _)
  rw [List.reverse_append, hct, List.cons_append, List.dropWhile_cons,
    if_neg (by simp [hc]), ← List.cons_append, ← hct, ← List.reverse_append,
    List.reverse_reverse]

theorem joinSegs_ne_nil (segs : List String) (hne : segs ≠ [])
    (hvalid : ∀ s ∈ segs, ValidSeg s) : joinSegs segs ≠ [] := by
  cases segs with
  | nil => exact absurd rfl hne
  | cons s rest =>
    have hs : s.data ≠ [] := (hvalid s (List.mem_cons_self _ _)).1
    cases rest with
    | nil => exact hs
    | cons r rs =>
      rw [joinSegs_cons s (r :: rs) (by simp)]
      intro h
      exact hs (List.append_eq_nil.mp h).1

theorem goFilepathBase_joinSegs (segs : List String) (hne : segs ≠ [])
    (hvalid : ∀ s ∈ segs, ValidSeg s) :
    goFilepathBase (String.mk (joinSegs segs)) = segs.getLastD "" := by
  obtain ⟨init, last, hdec⟩ : ∃ init last, segs = init ++ [last] := by
    rcases List.eq_nil_or_concat segs with h | ⟨init, last, h⟩
    · exact absurd h hne
    · exact ⟨init, last, by rw [h, List.concat_eq_append]⟩
  subst hdec
  have hlast : ValidSeg last := hvalid last (by simp)
  have hlne : last.data ≠ [] := hlast.1
  have hlns : ∀ c, c ∈ last.data → c ≠ '/' := by
    intro c hc heq
    exact hlast.2.1 (heq ▸ hc)
  have hrne : ∀ c, c ∈ last.data.reverse → c ≠ '/' := by
    intro c hc
    exact hlns c (List.mem_reverse.mp hc)
  cases hinit : init with
  | nil =>
    have hpath : joinSegs ([] ++ [last]) = last.data := by simp [joinSegs]
    rw [hpath]
    unfold goFilepathBase
    rw [if_neg (string_mk_ne_empty _ hlne)]
    have hdrop : dropTrailingSlashes (String.mk last.data).data = last.data := by
      have := dropTrailingSlashes_eq [] last.data hlne hlns
      simpa using this
    rw [hdrop]
    have hafter : afterLastSlash last.data = last.data := by
      unfold afterLastSlash
      rw [takeWhile_all_noSlash last.data.reverse hrne, List.reverse_reverse]
    rw [hafter, if_neg hlne, string_mk_data]
    simp [List.getLastD]
  | cons i0 irest =>
    have hinitne : init ≠ [] := by rw [hinit]; simp
    rw [← hinit]
    have hpath : joinSegs (init ++ [last]) = joinSegs init ++ '/' :: last.data :=
      joinSegs_snoc init last hinitne
    rw [hpath]
    unfold goFilepathBase
    rw [if_neg (string_mk_ne_empty _ (by simp))]
    have hdrop : dropTrailingSlashes (String.mk (joinSegs init ++ '/' :: last.data)).data =
        joinSegs init ++ '/' :: last.data := by
      have := dropTrailingSlashes_eq (joinSegs init ++ ['/']) last.data hlne hlns
      simpa using this
    rw [hdrop]
    have hafter : afterLastSlash (joinSegs init ++ '/' :: last.data) = last.data := by
      unfold afterLastSlash
      rw [List.reverse_append, List.reverse_cons, List.append_assoc]
      simp only [List.singleton_append]
      rw [takeWhile_noSlash_append last.data.reverse _ hrne, List.reverse_reverse]
    rw [hafter, if_neg hlne, string_mk_data, getLastD_snoc]

theorem uptoLastSlash_joinSegs_snoc (init : List String) (last : String)
    (hinit : init ≠ []) (hlast : ValidSeg last) :
    uptoLastSlash (joinSegs (init ++ [last])) = trailJoin init := by
  have hrne : ∀ c, c ∈ last.data.reverse → c ≠ '/' := by
    intro c hc heq
    exact hlast.2.1 (heq ▸ List.mem_reverse.mp hc)
  rw [joinSegs_snoc init last hinit]
  unfold uptoLastSlash
  rw [List.reverse_append, List.reverse_cons, List.append_assoc]
  simp only [List.singleton_append]
  rw [dropWhile_noSlash_append last.data.reverse _ hrne]
  rw [List.reverse_cons, List.reverse_reverse, trailJoin_eq init hinit]

/-- The accumulator that cleanLoop builds when fed well-formed segments. -/
def cleanOut : List String → List Char → List Char
  | [], out => out
  | s :: rest, out =>
    cleanOut rest ((if out.length ≠ 0 then out ++ ['/'] else out) ++ s.data)

/-- Characters contributed by the non-initial segments, each preceded by a slash. -/
def preJoin : List String → List Char
  | [] => []
  | s :: rest => '/' :: (s.data ++ preJoin rest)

theorem cleanOut_ne_nil (segs : List String) :
    ∀ out : List Char, out ≠ [] → cleanOut segs out = out ++ preJoin segs := by
  induction segs with
  | nil => intro out h; simp [cleanOut, preJoin]
  | cons s rest ih =>
    intro out h
    have hlen : out.length ≠ 0 := by simpa [List.length_eq_zero] using h
    show cleanOut rest ((if out.length ≠ 0 then out ++ ['/'] else out) ++ s.data) = _
    rw [if_pos hlen, ih _ (by simp)]
    simp [preJoin]

theorem joinSegs_eq_preJoin (s : String) (rest : List String) :
    joinSegs (s :: rest) = s.data ++ preJoin rest := by
  induction rest generalizing s with
  | nil => simp [joinSegs, preJoin]
  | cons r rs ih =>
    rw [joinSegs_cons s (r :: rs) (by simp), ih r]
    simp [preJoin]

theorem cleanOut_nil (segs : List String) (hne : segs ≠ [])
    (hvalid : ∀ s ∈ segs, ValidSeg s) : cleanOut segs [] = joinSegs segs := by
  cases segs with
  | nil => exact absurd rfl hne
  | cons s rest =>
    have hs : s.data ≠ [] := (hvalid s (List.mem_cons_self _ _)).1
    have h0 : cleanOut (s :: rest) [] = cleanOut rest s.data := by
      simp [cleanOut]
    rw [h0, cleanOut_ne_nil rest s.data hs, joinSegs_eq_preJoin]

theorem cleanLoop_slash (rooted : Bool) (f : Nat) (T out : List Char) (dd : Nat) :
    cleanLoop rooted (f + 1) ('/' :: T) out dd = cleanLoop rooted f T out dd := by
  simp [cleanLoop]

theorem cleanLoop_trailJoin (segs : List String) :
    ∀ fuel out dotdot, (∀ s ∈ segs, ValidSeg s) → (trailJoin segs).length < fuel →
      cleanLoop false fuel (trailJoin segs) out dotdot = cleanOut segs out := by
  induction segs with
  | nil =>
    intro fuel out dotdot _ hf
    cases fuel with
    | zero => simp at hf
    | succ f => rfl
  | cons s rest ih =>
    intro fuel out dotdot hvalid hf
    have hs : ValidSeg s := hvalid s (List.mem_cons_self _ _)
    obtain ⟨c, cs, hsd⟩ : ∃ c cs, s.data = c :: cs := by
      cases h : s.data with
      | nil => exact absurd h hs.1
      | cons a b => exact ⟨a, b, rfl⟩
    have hcns : c ≠ '/' := by
      intro he
      exact hs.2.1 (by rw [hsd]; exact he ▸ List.mem_cons_self c cs)
    have hcsns : ∀ x ∈ cs, x ≠ '/' := by
      intro x hx he
      exact hs.2.1 (by rw [hsd]; exact List.mem_cons_of_mem _ (he ▸ hx))
    have htj : trailJoin (s :: rest) = c :: (cs ++ '/' :: trailJoin rest) := by
      show s.data ++ '/' :: trailJoin rest = _
      rw [hsd]
      rfl
    rw [htj] at hf ⊢
    simp only [List.length_cons, List.length_append] at hf
    cases fuel with
    | zero => omega
    | succ f =>
      have hbr2 : ¬(c = '.' ∧
          (cs ++ '/' :: trailJoin rest = [] ∨ (cs ++ '/' :: trailJoin rest).head? = some '/')) := by
        rintro ⟨hc, hor⟩
        cases hcs : cs with
        | nil =>
          have hdot : s = "." := by
            rw [← string_mk_data s, hsd, hcs, hc]
          exact hs.2.2.1 hdot
        | cons c2 cs2 =>
          have hc2 : c2 ≠ '/' := hcsns c2 (by rw [hcs]; exact List.mem_cons_self _ _)
          rcases hor with h | h
          · rw [hcs] at h; simp at h
          · rw [hcs] at h
            simp only [List.cons_append, List.head?_cons] at h
            exact hc2 (Option.some.inj h)
      have hbr3 : ¬(c = '.' ∧ (cs ++ '/' :: trailJoin rest).head? = some '.' ∧
          ((cs ++ '/' :: trailJoin rest).tail = [] ∨
            (cs ++ '/' :: trailJoin rest).tail.head? = some '/')) := by
        rintro ⟨hc, hh, hor⟩
        cases hcs : cs with
        | nil =>
          rw [hcs] at hh
          simp at hh
        | cons c2 cs2 =>
          have hc2 : c2 = '.' := by
            rw [hcs] at hh
            simp only [List.cons_append, List.head?_cons] at hh
            exact Option.some.inj hh
          cases hcs2 : cs2 with
          | nil =>
            have hdd : s = ".." := by
              rw [← string_mk_data s, hsd, hcs, hcs2, hc, hc2]
            exact hs.2.2.2 hdd
          | cons c3 cs3 =>
            have hc3 : c3 ≠ '/' :=
              hcsns c3 (by rw [hcs, hcs2]; exact List.mem_cons_of_mem _ (List.mem_cons_self _ _))
            rw [hcs, hcs2] at hor
            rcases hor with h | h
            · simp at h
            · simp only [List.cons_append, List.tail_cons, List.head?_cons] at h
              exact hc3 (Option.some.inj h)
      simp only [cleanLoop]
      rw [if_neg hcns, if_neg hbr2, if_neg hbr3]
      have hX : ∀ x ∈ c :: cs, x ≠ '/' := by
        intro x hx
        rcases List.mem_cons.mp hx with h | h
        · rw [h]; exact hcns
        · exact hcsns x h
      simp only [← List.cons_append]
      rw [takeWhile_noSlash_append (c :: cs) _ hX, dropWhile_noSlash_append (c :: cs) _ hX]
      have hout : ((if (false = true ∧ out.length ≠ 1) ∨ (True ∧ out.length ≠ 0)
            then out ++ ['/'] else out) ++ c :: cs) =
          ((if out.length ≠ 0 then out ++ ['/'] else out) ++ s.data) := by
        rw [hsd]
        by_cases ho : out.length = 0
        · rw [if_neg (by simp [ho]), if_neg (by simp [ho])]
        · rw [if_pos (Or.inr ⟨trivial, ho⟩), if_pos ho]
      rw [hout]
      cases f with
      | zero => omega
      | succ f2 =>
        rw [cleanLoop_slash]
        have hrest : ∀ x ∈ rest, ValidSeg x := fun x hx => hvalid x (List.mem_cons_of_mem _ hx)
        rw [ih f2 _ dotdot hrest (by omega)]
        rfl

theorem goClean_trailJoin (segs : List String) (hne : segs ≠ [])
    (hvalid : ∀ s ∈ segs, ValidSeg s) :
    goClean (String.mk (trailJoin segs)) = String.mk (joinSegs segs) := by
  cases segs with
  | nil => exact absurd rfl hne
  | cons s rest =>
    have hs : ValidSeg s := hvalid s (List.mem_cons_self _ _)
    obtain ⟨c, cs, hsd⟩ : ∃ c cs, s.data = c :: cs := by
      cases h : s.data with
      | nil => exact absurd h hs.1
      | cons a b => exact ⟨a, b, rfl⟩
    have hcns : c ≠ '/' := by
      intro he
      exact hs.2.1 (by rw [hsd]; exact he ▸ List.mem_cons_self c cs)
    have htlne : trailJoin (s :: rest) ≠ [] := by
      show s.data ++ '/' :: trailJoin rest ≠ []
      simp
    have hhead : ¬ (String.mk (trailJoin (s :: rest))).data.head? = some '/' := by
      show ¬ (s.data ++ '/' :: trailJoin rest).head? = some '/'
      rw [hsd]
      simp only [List.cons_append, List.head?_cons]
      intro h
      exact hcns (Option.some.inj h)
    simp only [goClean]
    rw [if_neg (string_mk_ne_empty _ htlne), if_neg hhead]
    rw [cleanLoop_trailJoin (s :: rest) _ [] 0 hvalid (Nat.lt_succ_self _),
      cleanOut_nil (s :: rest) (by simp) hvalid,
      if_neg (joinSegs_ne_nil (s :: rest) (by simp) hvalid)]

theorem lastDotV_none (cs : List Char) (h : '.' ∉ cs) : lastDotV cs = none := by
  induction cs with
  | nil => rfl
  | cons c cs2 ih =>
    have hrec : lastDotV cs2 = none := ih fun h2 => h (List.mem_cons_of_mem _ h2)
    have hc : c ≠ '.' := fun he => h (he ▸ List.mem_cons_self _ _)
    simp only [lastDotV, hrec]
    split
    · exact absurd rfl hc
    · rfl

theorem lastDotV_concat (pre ds : List Char) (hds : '.' ∉ ds) :
    lastDotV (pre ++ '.' :: 'v' :: ds) = some ('v' :: ds) := by
  induction pre with
  | nil =>
    have hvds : lastDotV ('v' :: ds) = none := by
      apply lastDotV_none
      intro h
      rcases List.mem_cons.mp h with h | h
      · exact absurd h.symm (by decide)
      · exact hds h
    have hstep : lastDotV ('.' :: 'v' :: ds) =
        match lastDotV ('v' :: ds) with
        | some r => some r
        | none => some ('v' :: ds) := rfl
    rw [List.nil_append, hstep, hvds]
  | cons p pre2 ih =>
    rw [List.cons_append]
    simp only [lastDotV, ih]

theorem lastDotV_shape (cs suf : List Char) (h : lastDotV cs = some suf) :
    ∃ pre rest, suf = 'v' :: rest ∧ cs = pre ++ '.' :: 'v' :: rest := by
  induction cs generalizing suf with
  | nil => exact absurd h (by simp [lastDotV])
  | cons c cs2 ih =>
    simp only [lastDotV] at h
    split at h
    · next r heq =>
      have hsr : r = suf := Option.some.inj h
      obtain ⟨pre, rest, hsuf, hcs⟩ := ih r heq
      refine ⟨c :: pre, rest, by rw [← hsr]; exact hsuf, ?_⟩
      rw [hcs]
      rfl
    · next heq =>
      split at h
      · next rest => exact ⟨[], rest, (Option.some.inj h).symm, rfl⟩
      · exact absurd h (by simp)

theorem isVersion_true_of (ds : List Char) (hne : ds ≠ [])
    (hdig : ∀ d ∈ ds, '0' ≤ d ∧ d ≤ '9') :
    isVersionSuffix (String.mk ('v' :: ds)) = true := by
  cases ds with
  | nil => exact absurd rfl hne
  | cons d ds2 =>
    show (d :: ds2).all (fun x => decide ('0' ≤ x ∧ x ≤ '9')) = true
    rw [List.all_eq_true]
    intro x hx
    exact decide_eq_true (hdig x hx)

theorem isVersion_true_elim (rest : List Char)
    (h : isVersionSuffix (String.mk ('v' :: rest)) = true) :
    rest ≠ [] ∧ ∀ d ∈ rest, '0' ≤ d ∧ d ≤ '9' := by
  cases rest with
  | nil => exact absurd h (by decide)
  | cons d ds2 =>
    have h2 : (d :: ds2).all (fun x => decide ('0' ≤ x ∧ x ≤ '9')) = true := h
    rw [List.all_eq_true] at h2
    exact ⟨by simp, fun x hx => of_decide_eq_true (h2 x hx)⟩

theorem isVersion_false_dot (s : String) (h : '.' ∈ s.data) :
    isVersionSuffix s = false := by
  cases hb : isVersionSuffix s with
  | false => rfl
  | true =>
    exfalso
    unfold isVersionSuffix at hb
    split at hb
    · next c rest heq =>
      rw [heq] at h
      rw [List.all_eq_true] at hb
      rcases List.mem_cons.mp h with h1 | h1
      · exact absurd h1.symm (by decide)
      · have hd := of_decide_eq_true (hb '.' h1)
        exact absurd hd (by decide)
    · exact Bool.false_ne_true hb

theorem versionSuffix_of_decomp (s : String) (pre ds : List Char)
    (hd : s.data = pre ++ '.' :: 'v' :: ds) (hne : ds ≠ [])
    (hdig : ∀ d ∈ ds, '0' ≤ d ∧ d ≤ '9') :
    versionSuffix s = String.mk ('.' :: 'v' :: ds) := by
  have hdot : '.' ∉ ds := by
    intro hmem
    exact absurd (hdig '.' hmem) (by decide)
  have hlast : lastDotV s.data = some ('v' :: ds) := by
    rw [hd]
    exact lastDotV_concat pre ds hdot
  simp only [versionSuffix, hlast, isVersion_true_of ds hne hdig, if_true]

theorem versionSuffix_empty (s : String)
    (h : ∀ pre ds, s.data = pre ++ '.' :: 'v' :: ds → ds ≠ [] →
      (∀ d ∈ ds, '0' ≤ d ∧ d ≤ '9') → False) :
    versionSuffix s = "" := by
  cases hl : lastDotV s.data with
  | none => simp only [versionSuffix, hl]
  | some suf =>
    obtain ⟨pre, rest, hsuf, hcs⟩ := lastDotV_shape s.data suf hl
    cases hv : isVersionSuffix (String.mk suf) with
    | false => simp [versionSuffix, hl, hv]
    | true =>
      exfalso
      rw [hsuf] at hv
      obtain ⟨hne, hdig⟩ := isVersion_true_elim rest hv
      exact h pre rest hcs hne hdig

theorem isPrefixOf_self_append (X Y : List Char) : X.isPrefixOf (X ++ Y) = true := by
  induction X with
  | nil => simp [List.isPrefixOf]
  | cons c cs ih => simp [List.isPrefixOf, ih]

theorem isSuffixOf_append_self (pre suf : List Char) :
    suf.isSuffixOf (pre ++ suf) = true := by
  unfold List.isSuffixOf
  rw [List.reverse_append]
  exact isPrefixOf_self_append suf.reverse pre.reverse

theorem goCutSuffix_append (pre suf : List Char) :
    goCutSuffix (String.mk (pre ++ suf)) (String.mk suf) = (String.mk pre, true) := by
  have hsuf : (String.mk suf).data.isSuffixOf (String.mk (pre ++ suf)).data = true :=
    isSuffixOf_append_self pre suf
  simp only [goCutSuffix, hsuf, if_true]
  have htake : (pre ++ suf).take ((pre ++ suf).length - suf.length) = pre := by
    rw [List.length_append]
    have hl : pre.length + suf.length - suf.length = pre.length := by omega
    rw [hl, List.take_left]
  rw [htake]

/-- C10: fallbackName is total on well-formed import paths and strips version
suffixes: if the last segment is a bare major-version segment the second-to-last
segment is returned; if the last segment ends in a dot followed by a
major-version marker, that suffix is stripped; otherwise the last segment is
returned unchanged. -/
theorem fallbackName_spec (segs : List String) (hne : segs ≠ [])
    (hvalid : ∀ s ∈ segs, ValidSeg s) :
    (2 ≤ segs.length → isVersionSuffix (segs.getLastD "") = true →
      fallbackName (String.mk (joinSegs segs)) = segs.dropLast.getLastD "") ∧
    (∀ pre ds, (segs.getLastD "").data = pre ++ '.' :: 'v' :: ds → ds ≠ [] →
      (∀ d ∈ ds, '0' ≤ d ∧ d ≤ '9') →
      fallbackName (String.mk (joinSegs segs)) = String.mk pre) ∧
    (isVersionSuffix (segs.getLastD "") = false →
      (∀ pre ds, (segs.getLastD "").data = pre ++ '.' :: 'v' :: ds → ds ≠ [] →
        (∀ d ∈ ds, '0' ≤ d ∧ d ≤ '9') → False) →
      fallbackName (String.mk (joinSegs segs)) = segs.getLastD "") := by
  have hbase : goFilepathBase (String.mk (joinSegs segs)) = segs.getLastD "" :=
    goFilepathBase_joinSegs segs hne hvalid
  refine ⟨?_, ?_, ?_⟩
  · intro h2 hv
    obtain ⟨init, last, hdec⟩ : ∃ init last, segs = init ++ [last] := by
      rcases List.eq_nil_or_concat segs with h | ⟨init, last, h⟩
      · exact absurd h hne
      · exact ⟨init, last, by rw [h, List.concat_eq_append]⟩
    subst hdec
    have hinitne : init ≠ [] := by
      intro h0
      rw [h0] at h2
      simp at h2
    have hvinit : ∀ s ∈ init, ValidSeg s := fun s hs =>
      hvalid s (List.mem_append_left _ hs)
    have hlastv : ValidSeg last := hvalid last (by simp)
    simp only [fallbackName]
    rw [hbase, hv, if_pos rfl]
    have hdir : goFilepathDir (String.mk (joinSegs (init ++ [last]))) =
        String.mk (joinSegs init) := by
      unfold goFilepathDir
      rw [show (String.mk (joinSegs (init ++ [last]))).data = joinSegs (init ++ [last])
          from rfl]
      rw [uptoLastSlash_joinSegs_snoc init last hinitne hlastv]
      exact goClean_trailJoin init hinitne hvinit
    rw [hdir, goFilepathBase_joinSegs init hinitne hvinit, List.dropLast_concat]
  · intro pre ds hdec2 hdsne hdig
    have hvfalse : isVersionSuffix (segs.getLastD "") = false :=
      isVersion_false_dot _ (by
        rw [hdec2]
        exact List.mem_append_right _ (List.mem_cons_self _ _))
    simp only [fallbackName]
    rw [hbase, hvfalse, if_neg (by simp)]
    have hvs : versionSuffix (segs.getLastD "") = String.mk ('.' :: 'v' :: ds) :=
      versionSuffix_of_decomp _ pre ds hdec2 hdsne hdig
    have hlasteq : segs.getLastD "" = String.mk (pre ++ '.' :: 'v' :: ds) := by
      rw [← string_mk_data (segs.getLastD ""), hdec2]
    rw [hvs, hlasteq, goCutSuffix_append pre ('.' :: 'v' :: ds)]
    simp
  · intro hv hnone
    simp only [fallbackName]
    rw [hbase, hv, if_neg (by simp)]
    have hvs : versionSuffix (segs.getLastD "") = "" := versionSuffix_empty _ hnone
    have hcut : goCutSuffix (segs.getLastD "") "" = (segs.getLastD "", true) := by
      have h1 := goCutSuffix_append (segs.getLastD "").data []
      rw [List.append_nil, string_mk_data] at h1
      exact h1
    rw [hvs, hcut]
    simp

/-- Witness: fallbackName on the path github.com/example/pkg/v2 drops the bare
version segment and returns pkg. -/
theorem fallbackName_spec_witness :
    fallbackName (String.mk (joinSegs ["github.com", "example", "pkg", "v2"])) = "pkg" := by
  have h := (fallbackName_spec ["github.com", "example", "pkg", "v2"]
    (by decide) (by decide)).1 (by decide) (by decide)
  exact h
